import Mathlib

/-!
A shallow embedding of `src/machine.py` (a Cheney-style semispace copying
garbage collector inside a small abstract register machine), together with
proofs of the specification's claims about it.

Modelling conventions:
* A Python `Value` is one of `Data` (an integer), `Pointer` (a heap identity
  plus an offset), `Key` (the placeholder type word) or the Python `None`
  that sits in uninitialised heap slots (`Value.null`).
* Python heap identity (`Pointer._heap is heap`) is modelled by a numeric
  `id` tag carried by every `Heap`; `Heap.newHeap` allocates a fresh tag.
  During a collection exactly two heaps exist (from-space and to-space), so
  the collector resolves a pointer's heap tag against those two; a tag that
  matches neither corresponds to a heap object that does not exist in the
  collector's world and is mapped to a crash.
* A Python runtime error that the program does not model (IndexError,
  AttributeError, KeyError) is `Err.crash`; `GarbageCollectionNeededException`
  is `Err.gcNeeded`; `OurException` is `Err.ourError msg`.
* Operations that can raise after having already mutated state that a caller
  can observe (`newOject`, `clone`) return the final state alongside the
  `Except` outcome, mirroring Python's in-place mutation.  The collector's
  internal operations use plain `Except`: when they raise, the exception
  propagates out of `collectGarbage` and out of the machine, so the
  partially-mutated collector state is never observed by any caller.
* The scan loop of `collectGarbage` is modelled with explicit fuel
  (`capacity + 1`); exhausting the fuel yields `Err.fuel`, the model's
  rendering of a diverging loop.  The termination theorem shows the fuel is
  never exhausted for well-formed states.
* Machine registers are a Python dict with insertion order, modelled as an
  association list updated in place by `setReg`.
-/

namespace CheneyGC

/-- The value union of the machine: `Data`, `Pointer`, `Key`, or Python's
`None` (which sits in uninitialised heap slots). -/
inductive Value where
  | data (n : Int)
  | pointer (hid : Nat) (off : Nat)
  | key
  | null
deriving DecidableEq, Repr

/-- Python `Data.value()`: only `Data` has a `value` method, every other
variant crashes (AttributeError). -/
def Value.value : Value → Option Int
  | .data n => some n
  | _ => none

/-- Python `isinstance(v, Pointer)`. -/
def Value.isPointer : Value → Bool
  | .pointer _ _ => true
  | _ => false

/-- Python `isinstance(v, Pointer) and v.isInHeap(h)` for a heap with tag
`hid`; `Pointer.isInHeap` is identity of the owning heap. -/
def Value.isPointerInto : Value → Nat → Bool
  | .pointer h _, hid => h = hid
  | _, _ => false

/-- The error taxonomy: the heap's internal capacity signal, the
user-facing `OurException`, an unmodelled Python runtime error, and the
fuel marker standing for a diverging loop. -/
inductive Err where
  | gcNeeded
  | ourError (msg : String)
  | crash
  | fuel
deriving DecidableEq, Repr

deriving instance DecidableEq for Except

/-- The heap of `machine.py`: a fixed-size array of slots (initially the
Python `None`), a bump `tip`, and the collection-time `scan_queue` cursor,
plus the identity tag standing for Python object identity. -/
structure Heap where
  id : Nat
  slots : List Value
  tip : Nat
  scan_queue : Nat
deriving DecidableEq, Repr

/-- `len(self._heap)`. -/
def Heap.capacity (h : Heap) : Nat := h.slots.length

/-- `Heap.get`: `self._heap[offset]`; `none` is an IndexError. -/
def Heap.get (h : Heap) (off : Nat) : Option Value := h.slots[off]?

/-- `Heap.put`: `self._heap[offset] = value`; `none` is an IndexError. -/
def Heap.put (h : Heap) (off : Nat) (v : Value) : Option Heap :=
  if off < h.slots.length then some { h with slots := h.slots.set off v } else none

/-- `Heap.checkCapacity`: raise the collection signal when
`tip + length > len(heap)`. -/
def Heap.checkCapacity (h : Heap) (len : Int) : Except Err Unit :=
  if (h.tip : Int) + len > (h.capacity : Int) then .error .gcNeeded else .ok ()

/-- `Heap.add`: `self._heap[self._tip] = value; self._tip += 1`; writing at
or past the end of the array is an IndexError. -/
def Heap.add (h : Heap) (v : Value) : Except Err Heap :=
  if h.tip < h.slots.length then
    .ok { h with slots := h.slots.set h.tip v, tip := h.tip + 1 }
  else .error .crash

/-- `Heap.tipPointer`: a pointer to the current tip of this heap. -/
def Heap.tipPointer (h : Heap) : Value := .pointer h.id h.tip

/-- `Heap.pointer`: a pointer into this heap at a given offset. -/
def Heap.pointer (h : Heap) (off : Nat) : Value := .pointer h.id off

/-- `Heap.newHeap`: a fresh empty heap of the same capacity; the fresh
identity tag models a newly constructed Python object. -/
def Heap.newHeap (h : Heap) : Heap :=
  ⟨h.id + 1, List.replicate h.slots.length .null, 0, 0⟩

/-- Python `xs[-n:]` for a non-negative `n`: the last `n` entries, except
that `n = 0` gives the whole list (`xs[0:]`), and `n > len(xs)` clamps to
the whole list. -/
def pyTakeLast (n : Nat) (xs : List Value) : List Value :=
  if n = 0 then xs else xs.drop (xs.length - n)

/-- Python `del xs[-n:]` for a non-negative `n`: what remains of the list;
`n = 0` deletes everything (`del xs[0:]`). -/
def pyDelLast (n : Nat) (xs : List Value) : List Value :=
  if n = 0 then [] else xs.take (xs.length - n)

/-- Python slice assignment `xs[a:b] = repl` for `a ≤ b` within range: the
replacement list need not have length `b - a`, in which case the list
changes length. -/
def pySpliceAt (xs : List Value) (a b : Nat) (repl : List Value) : List Value :=
  xs.take a ++ repl ++ xs.drop b

/-- `Heap.newOject` (the source's spelling): check capacity for
`length + 2` words, then lay down `Key`, `Data(length)`, and the top
`length` stack entries via `self._heap[tip:tip+length] = stack[-length:]`
and `del stack[-length:]`, advancing the tip.  Returns the outcome together
with the final heap and stack, mirroring in-place mutation.  The embedding
covers non-negative element counts, which is what every caller in the
source supplies. -/
def Heap.newOject (h : Heap) (length : Nat) (stack : List Value) :
    Except Err Value × Heap × List Value :=
  match h.checkCapacity ((length : Int) + 2) with
  | .error e => (.error e, h, stack)
  | .ok _ =>
    let result := h.tipPointer
    match h.add .key with
    | .error e => (.error e, h, stack)
    | .ok h1 =>
      match h1.add (.data (length : Int)) with
      | .error e => (.error e, h1, stack)
      | .ok h2 =>
        (.ok result,
         { h2 with
            slots := pySpliceAt h2.slots h2.tip (h2.tip + length) (pyTakeLast length stack),
            tip := h2.tip + length },
         pyDelLast length stack)

/-- `Heap.explode`: read the length word at `offset + 1` and append the
element slice `self._heap[offset+2 : offset+2+length]` to the stack.  The
pointer's heap identity is not consulted; a non-pointer argument crashes
(no `offset` method); a Python slice read never raises, it clamps. -/
def Heap.explode (h : Heap) (p : Value) (stack : List Value) :
    Except Err (List Value) :=
  match p with
  | .pointer _ off =>
    match h.get (off + 1) with
    | some lv =>
      match lv.value with
      | some n => .ok (stack ++ (h.slots.drop (off + 2)).take n.toNat)
      | none => .error .crash
    | none => .error .crash
  | _ => .error .crash

/-- The element-copying loop of `Heap.clone` where source and target are the
same heap object: each iteration reads `self._heap[off + 2 + i]` from the
current (already partially extended) heap and appends it. -/
def Heap.cloneAddLoop (h : Heap) (off : Nat) : List Nat → Except Err Unit × Heap
  | [] => (.ok (), h)
  | i :: rest =>
    match h.get (off + 2 + i) with
    | none => (.error .crash, h)
    | some v =>
      match h.add v with
      | .error e => (.error e, h)
      | .ok h1 => Heap.cloneAddLoop h1 off rest

/-- `Heap.clone`: `self.cloneToTargetHeap(pointer, self)` — source and
target are the same heap, so reads and appends alias one array.  Returns
the outcome with the final heap, mirroring in-place mutation.  The
pointer's heap identity is not consulted. -/
def Heap.clone (h : Heap) (p : Value) : Except Err Value × Heap :=
  match p with
  | .pointer _ off =>
    match h.get (off + 1) with
    | none => (.error .crash, h)
    | some lv =>
      match lv.value with
      | none => (.error .crash, h)
      | some n =>
        match h.checkCapacity (n + 2) with
        | .error e => (.error e, h)
        | .ok _ =>
          let result := h.tipPointer
          match h.add .key with
          | .error e => (.error e, h)
          | .ok h1 =>
            match h1.add (.data n) with
            | .error e => (.error e, h1)
            | .ok h2 =>
              match h2.cloneAddLoop off (List.range n.toNat) with
              | (.error e, h3) => (.error e, h3)
              | (.ok _, h3) => (.ok result, h3)
  | _ => (.error .crash, h)

/-- The element-copying loop of `Heap.cloneToTargetHeap` with distinct
source and target heaps: reads come from the fixed source heap. -/
def copyFieldsAux (src : Heap) (off : Nat) : List Nat → Heap → Except Err Heap
  | [], t => .ok t
  | i :: rest, t =>
    match src.get (off + 2 + i) with
    | none => .error .crash
    | some v =>
      match t.add v with
      | .error e => .error e
      | .ok t1 => copyFieldsAux src off rest t1

/-- `Heap.cloneToTargetHeap` as invoked by the collector, where the target
is the distinct new heap: read the length word from this heap at
`offset + 1` (the pointer's own heap identity is not consulted), check the
target's capacity, then append `Key`, `Data(length)` and the element words
to the target.  Collector-internal, so the partially-extended target on a
raise is never observed; plain `Except` style. -/
def Heap.cloneToTargetHeap (h : Heap) (p : Value) (target : Heap) :
    Except Err (Value × Heap) :=
  match p with
  | .pointer _ off =>
    match h.get (off + 1) with
    | none => .error .crash
    | some lv =>
      match lv.value with
      | none => .error .crash
      | some n =>
        match target.checkCapacity (n + 2) with
        | .error e => .error e
        | .ok _ =>
          let result := target.tipPointer
          match target.add .key with
          | .error e => .error e
          | .ok t1 =>
            match t1.add (.data n) with
            | .error e => .error e
            | .ok t2 =>
              match copyFieldsAux h off (List.range n.toNat) t2 with
              | .error e => .error e
              | .ok t3 => .ok (result, t3)
  | _ => .error .crash

/-- The state of one `GarbageCollector` run: the machine's current heap
(from-space) and the fresh heap built by the constructor (to-space). -/
structure Collector where
  old : Heap
  new : Heap
deriving DecidableEq, Repr

/-- `Pointer.dereference`: read the pointer's own heap.  In the collector's
two-heap world the heap tag is resolved against from-space and to-space; a
tag matching neither is a heap object outside the model. -/
def Collector.deref (c : Collector) (hid off : Nat) : Option Value :=
  if hid = c.old.id then c.old.get off
  else if hid = c.new.id then c.new.get off
  else none

/-- `Pointer.update`: write through the pointer into its own heap, resolved
in the collector's two-heap world. -/
def Collector.updatePtr (c : Collector) (hid off : Nat) (v : Value) :
    Option Collector :=
  if hid = c.old.id then (c.old.put off v).map (fun o => { c with old := o })
  else if hid = c.new.id then (c.new.put off v).map (fun n => { c with new := n })
  else none

/-- `GarbageCollector.forwardIfPointer`: non-pointers pass through; a
pointer whose dereferenced word is already a pointer into the new heap is
already forwarded; otherwise clone the record into the new heap, overwrite
the dereferenced slot with the new pointer (the forwarding marker) and
return it. -/
def Collector.forwardIfPointer (c : Collector) (v : Value) :
    Except Err (Value × Collector) :=
  match v with
  | .pointer hid off =>
    match c.deref hid off with
    | none => .error .crash
    | some p =>
      if p.isPointerInto c.new.id then
        .ok (p, c)
      else
        match c.old.cloneToTargetHeap (.pointer hid off) c.new with
        | .error e => .error e
        | .ok (np, n1) =>
          match (Collector.mk c.old n1).updatePtr hid off np with
          | none => .error .crash
          | some c2 => .ok (np, c2)
  | v => .ok (v, c)

/-- The field loop of `Heap.gcScanNextObject`: rewrite each element slot of
the record being scanned through `forwardIfPointer`. -/
def scanFields (offset : Nat) : List Nat → Collector → Except Err Collector
  | [], c => .ok c
  | i :: rest, c =>
    match c.new.get (offset + 2 + i) with
    | none => .error .crash
    | some v =>
      match c.forwardIfPointer v with
      | .error e => .error e
      | .ok (v2, c1) =>
        match c1.new.put (offset + 2 + i) v2 with
        | none => .error .crash
        | some n2 => scanFields offset rest { c1 with new := n2 }

/-- `Heap.gcScanNextObject` invoked on the new heap: if the scan cursor has
not reached the tip, read the length word of the record at the cursor,
advance the cursor past the whole record, rewrite its element slots through
`forwardIfPointer`, and report `true`; otherwise report `false`. -/
def Collector.gcScanNextObject (c : Collector) : Except Err (Bool × Collector) :=
  if c.new.scan_queue < c.new.tip then
    let offset := c.new.scan_queue
    match c.new.get (offset + 1) with
    | none => .error .crash
    | some lv =>
      match lv.value with
      | none => .error .crash
      | some n =>
        let c1 : Collector :=
          { c with new := { c.new with scan_queue := ((offset : Int) + 2 + n).toNat } }
        match scanFields offset (List.range n.toNat) c1 with
        | .error e => .error e
        | .ok c2 => .ok (true, c2)
  else .ok (false, c)

/-- The `while self._new_heap.gcScanNextObject(self): pass` loop, with
explicit fuel; `Err.fuel` stands for divergence. -/
def Collector.scanLoop : Nat → Collector → Except Err Collector
  | 0, _ => .error .fuel
  | f + 1, c =>
    match c.gcScanNextObject with
    | .error e => .error e
    | .ok (b, c1) => if b then Collector.scanLoop f c1 else .ok c1

/-- `GarbageCollector._visitRegisters`: walk the registers in insertion
order and forward every pointer-valued register in place. -/
def Collector.visitRegisters :
    Collector → List (String × Value) → Except Err (List (String × Value) × Collector)
  | c, [] => .ok ([], c)
  | c, (k, v) :: rest =>
    match (if v.isPointer then c.forwardIfPointer v else .ok (v, c)) with
    | .error e => .error e
    | .ok (v2, c1) =>
      match Collector.visitRegisters c1 rest with
      | .error e => .error e
      | .ok (rest2, c2) => .ok ((k, v2) :: rest2, c2)

/-- `GarbageCollector._visitValueStack`: forward every stack slot in
place. -/
def Collector.visitValueStack :
    Collector → List Value → Except Err (List Value × Collector)
  | c, [] => .ok ([], c)
  | c, v :: rest =>
    match c.forwardIfPointer v with
    | .error e => .error e
    | .ok (v2, c1) =>
      match Collector.visitValueStack c1 rest with
      | .error e => .error e
      | .ok (rest2, c2) => .ok (v2 :: rest2, c2)

/-- `GarbageCollector.collectGarbage` with explicit scan-loop fuel: build
the to-space, forward the roots (registers then stack), run the scan loop,
and return the rewritten roots with the new heap. -/
def collectGarbageFuel (fuel : Nat) (registers : List (String × Value))
    (stack : List Value) (heap : Heap) :
    Except Err (List (String × Value) × List Value × Heap) :=
  let c : Collector := ⟨heap, heap.newHeap⟩
  match c.visitRegisters registers with
  | .error e => .error e
  | .ok (regs1, c1) =>
    match c1.visitValueStack stack with
    | .error e => .error e
    | .ok (stack1, c2) =>
      match Collector.scanLoop fuel c2 with
      | .error e => .error e
      | .ok c3 => .ok (regs1, stack1, c3.new)

/-- `GarbageCollector.collectGarbage`: the fuel `capacity + 1` over-covers
the scan loop's iteration count, which is bounded because the cursor
strictly advances by at least two slots per iteration inside the fixed
capacity. -/
def collectGarbage (registers : List (String × Value)) (stack : List Value)
    (heap : Heap) : Except Err (List (String × Value) × List Value × Heap) :=
  collectGarbageFuel (heap.capacity + 1) registers stack heap

/-- The abstract machine: named registers (a dict in insertion order), the
current heap and the value stack. -/
structure Machine where
  registers : List (String × Value)
  heap : Heap
  stack : List Value
deriving DecidableEq, Repr

/-- Python `self._registers[k]`: `none` is a KeyError. -/
def getReg (regs : List (String × Value)) (k : String) : Option Value :=
  (regs.find? (fun kv => kv.1 = k)).map (fun kv => kv.2)

/-- Python `self._registers[k] = v`: update in place, or append a new
binding in insertion order. -/
def setReg (regs : List (String × Value)) (k : String) (v : Value) :
    List (String × Value) :=
  if regs.any (fun kv => kv.1 = k) then
    regs.map (fun kv => if kv.1 = k then (k, v) else kv)
  else regs ++ [(k, v)]

/-- `Machine.garbageCollect`: run a collection and adopt the new heap and
rewritten roots. -/
def Machine.garbageCollect (m : Machine) : Except Err Machine :=
  match collectGarbage m.registers m.stack m.heap with
  | .error e => .error e
  | .ok (regs, stack, heap) => .ok ⟨regs, heap, stack⟩

/-- The body of `Machine.NEW_OBJECT`'s `try` block: read the length
register (a missing register or a non-`Data` value crashes; the embedding
covers non-negative counts) and attempt the allocation, producing the
machine state after the attempt whether or not it raised (`newOject`
raises only before it has written anything). -/
def Machine.newObjectAttempt (m : Machine) (lenReg objReg : String) :
    Except Err Unit × Machine :=
  match getReg m.registers lenReg with
  | none => (.error .crash, m)
  | some lv =>
    match lv.value with
    | none => (.error .crash, m)
    | some n =>
      if n < 0 then (.error .crash, m)
      else
        match m.heap.newOject n.toNat m.stack with
        | (.ok p, h1, st1) =>
          (.ok (), { registers := setReg m.registers objReg p, heap := h1, stack := st1 })
        | (.error e, h1, st1) => (.error e, { m with heap := h1, stack := st1 })

/-- `Machine.NEW_OBJECT` with `try_gc=False`: a capacity signal from the
attempt becomes the fatal out-of-memory error. -/
def Machine.NEW_OBJECT_noGC (m : Machine) (lenReg objReg : String) :
    Except Err Machine :=
  match m.newObjectAttempt lenReg objReg with
  | (.ok _, m1) => .ok m1
  | (.error .gcNeeded, _) => .error (.ourError "Out of memory")
  | (.error e, _) => .error e

/-- `Machine.NEW_OBJECT` with `try_gc=True`: on a capacity signal, collect
garbage once and retry once with `try_gc=False`. -/
def Machine.NEW_OBJECT (m : Machine) (lenReg objReg : String) :
    Except Err Machine :=
  match m.newObjectAttempt lenReg objReg with
  | (.ok _, m1) => .ok m1
  | (.error .gcNeeded, m1) =>
    (match m1.garbageCollect with
     | .error e => .error e
     | .ok m2 => m2.NEW_OBJECT_noGC lenReg objReg)
  | (.error e, _) => .error e

/-- The body of `Machine.CLONE`'s `try` block: read the object register and
attempt the clone, producing the machine state after the attempt whether or
not it raised (`clone` raises the capacity signal only before it has
written anything). -/
def Machine.cloneAttempt (m : Machine) (objReg cloneReg : String) :
    Except Err Unit × Machine :=
  match getReg m.registers objReg with
  | none => (.error .crash, m)
  | some pv =>
    match m.heap.clone pv with
    | (.ok p, h1) =>
      (.ok (), { m with registers := setReg m.registers cloneReg p, heap := h1 })
    | (.error e, h1) => (.error e, { m with heap := h1 })

/-- `Machine.CLONE` with `try_gc=False`. -/
def Machine.CLONE_noGC (m : Machine) (objReg cloneReg : String) :
    Except Err Machine :=
  match m.cloneAttempt objReg cloneReg with
  | (.ok _, m1) => .ok m1
  | (.error .gcNeeded, _) => .error (.ourError "Out of memory")
  | (.error e, _) => .error e

/-- `Machine.CLONE` with `try_gc=True`: on a capacity signal, collect
garbage once and retry once with `try_gc=False`. -/
def Machine.CLONE (m : Machine) (objReg cloneReg : String) :
    Except Err Machine :=
  match m.cloneAttempt objReg cloneReg with
  | (.ok _, m1) => .ok m1
  | (.error .gcNeeded, m1) =>
    (match m1.garbageCollect with
     | .error e => .error e
     | .ok m2 => m2.CLONE_noGC objReg cloneReg)
  | (.error e, _) => .error e

/-! Specification-side definitions: the record structure of a heap, machine
well-formedness, reachability and recursive object equivalence. -/

/-- The element count stored in the length slot of the record starting at
`s` (zero when the slot is not a `Data` word). -/
def lenAt (slots : List Value) (s : Nat) : Nat :=
  match slots[s + 1]? with
  | some (.data n) => n.toNat
  | _ => 0

/-- The full size in words of the record starting at `s`: key word, length
word, and the elements. -/
def recSize (slots : List Value) (s : Nat) : Nat := 2 + lenAt slots s

/-- `Chain slots s L t`: the region `[s, t)` of the slot array is tiled by
a sequence of well-formed records whose start offsets are `L`, each record
being a `Key` word, a non-negative `Data` length word, and that many
element words. -/
inductive Chain (slots : List Value) : Nat → List Nat → Nat → Prop where
  | nil (t : Nat) : Chain slots t [] t
  | cons (s : Nat) (n : Nat) (rest : List Nat) (t : Nat)
      (hk : slots[s]? = some .key)
      (hl : slots[s + 1]? = some (.data (n : Int)))
      (hrest : Chain slots (s + 2 + n) rest t) :
      Chain slots s (s :: rest) t

/-- Executable record parser: walk the region `[s, t)` record by record,
returning the list of start offsets, or `none` if the region is not tiled
by well-formed records. -/
def parseChain (slots : List Value) : Nat → Nat → Nat → Option (List Nat)
  | 0, s, t => if s = t then some [] else none
  | f + 1, s, t =>
    if s = t then some []
    else
      match slots[s]?, slots[s + 1]? with
      | some .key, some (.data n) =>
        if 0 ≤ n ∧ s + 2 + n.toNat ≤ t then
          (parseChain slots f (s + 2 + n.toNat) t).map (fun l => s :: l)
        else none
      | _, _ => none

/-- The record starts of a heap's allocated region, or `none` when the
region is not a well-formed sequence of records. -/
def Heap.starts (h : Heap) : Option (List Nat) :=
  parseChain h.slots (h.tip + 1) 0 h.tip

/-- A value is admissible in a well-formed state with heap tag `hid` and
record starts `L`: any pointer in it targets the start of a record of that
heap. -/
def okVal (hid : Nat) (L : List Nat) : Value → Prop
  | .pointer h s => h = hid ∧ s ∈ L
  | _ => True

instance (hid : Nat) (L : List Nat) (v : Value) : Decidable (okVal hid L v) := by
  cases v <;> simp only [okVal] <;> infer_instance

/-- Every element word of every record holds an admissible value. -/
def fieldsWF (slots : List Value) (hid : Nat) (L : List Nat) : Prop :=
  ∀ s ∈ L, ∀ i < lenAt slots s,
    match slots[s + 2 + i]? with
    | some v => okVal hid L v
    | none => True

instance (slots : List Value) (hid : Nat) (L : List Nat) (s i : Nat) :
    Decidable (match slots[s + 2 + i]? with
      | some v => okVal hid L v
      | none => True) := by
  cases slots[s + 2 + i]? <;> simp only [] <;> infer_instance

instance (slots : List Value) (hid : Nat) (L : List Nat) :
    Decidable (fieldsWF slots hid L) := by
  unfold fieldsWF
  exact List.decidableBAll _ L

/-- Machine well-formedness: the heap's allocated region parses into
records, the tip is within capacity, and every register, stack slot and
record element holds an admissible value (its pointers carry this heap's
tag and target record starts). -/
def Machine.WF (m : Machine) : Prop :=
  match m.heap.starts with
  | some L =>
    m.heap.tip ≤ m.heap.capacity ∧
    (∀ kv ∈ m.registers, okVal m.heap.id L kv.2) ∧
    (∀ v ∈ m.stack, okVal m.heap.id L v) ∧
    fieldsWF m.heap.slots m.heap.id L
  | none => False

instance (m : Machine) : Decidable m.WF := by
  unfold Machine.WF
  cases m.heap.starts <;> simp only [] <;> infer_instance

/-- Depth-bounded object equivalence between a record of heap `H` and a
record of heap `H'`: same length, and elementwise equal data with pointers
resolving to records equivalent at the next depth. -/
def EquivUpTo (H H' : Heap) : Nat → Nat → Nat → Prop
  | 0, _, _ => True
  | k + 1, s, t =>
    lenAt H.slots s = lenAt H'.slots t ∧
    ∀ i < lenAt H.slots s,
      match H.slots[s + 2 + i]?, H'.slots[t + 2 + i]? with
      | some (.pointer h1 s'), some (.pointer h2 t') =>
        h1 = H.id ∧ h2 = H'.id ∧ EquivUpTo H H' k s' t'
      | some v, some w => v = w
      | _, _ => False

/-- Reachability of the record start `s` from a root value `v` in heap `H`,
through zero or more element-slot pointers. -/
inductive ReachVal (H : Heap) : Value → Nat → Prop where
  | here (s : Nat) : ReachVal H (.pointer H.id s) s
  | step (v : Value) (s0 s i : Nat)
      (hr : ReachVal H v s0) (hi : i < lenAt H.slots s0)
      (hf : H.slots[s0 + 2 + i]? = some (.pointer H.id s)) :
      ReachVal H v s

/-- A root value of the machine: the content of some register or some
operand-stack slot. -/
def Machine.RootVal (m : Machine) (v : Value) : Prop :=
  (∃ kv ∈ m.registers, kv.2 = v) ∨ v ∈ m.stack

/-- A record start reachable from some root of the machine. -/
def Machine.Reachable (m : Machine) (s : Nat) : Prop :=
  ∃ v, m.RootVal v ∧ ReachVal m.heap v s

/-- The forwarding address recorded at the old-heap record start `s`: the
offset of the new-heap copy when the slot already holds the forwarding
marker (a pointer into the new heap). -/
def fwdAddr (c : Collector) (s : Nat) : Option Nat :=
  match c.old.slots[s]? with
  | some (.pointer hid t) => if hid = c.new.id then some t else none
  | _ => none

/-- How the collector rewrites one admissible value: non-pointers pass
through, and an old-heap pointer is replaced by the new-heap pointer its
target was forwarded to. -/
def fwdVal (c : Collector) : Value → Value → Prop
  | .pointer _ s, w => ∃ t, fwdAddr c s = some t ∧ w = .pointer c.new.id t
  | v, w => w = v

/-- Example from-space for concrete instantiations: one record `[7]` of
length 1. -/
def oldHeapEx : Heap := ⟨0, [.key, .data 1, .data 7, .null], 3, 0⟩

/-- Example empty to-space of the same capacity. -/
def newHeapEx : Heap := ⟨1, [.null, .null, .null, .null], 0, 0⟩

/-- Example collector state at the start of a cycle. -/
def collEx : Collector := ⟨oldHeapEx, newHeapEx⟩

/-- Well-formedness of the pre-collection heap `O` with record starts `L`:
the allocated region is tiled by records, the tip is within capacity, and
every element word is admissible (pointers carry `O`'s tag and target
record starts). -/
structure HeapWF (O : Heap) (L : List Nat) : Prop where
  chain : Chain O.slots 0 L O.tip
  tipLe : O.tip ≤ O.slots.length
  fieldsOk : ∀ s ∈ L, ∀ i < lenAt O.slots s, ∀ v, O.slots[s + 2 + i]? = some v →
    okVal O.id L v

/-- The copied-record correspondence maintained during a collection, with
scan boundary `B`: the new-heap record at `t` is the copy of the old record
at `s` — same length word under a fresh `Key`, element slots at positions
at least `B` still verbatim old-heap copies, element slots below `B`
already rewritten through forwarding. -/
def FwdCopy (O : Heap) (L : List Nat) (c : Collector) (B : Nat) (s t : Nat) : Prop :=
  s ∈ L ∧
  c.new.slots[t]? = some .key ∧
  c.new.slots[t + 1]? = some (.data (lenAt O.slots s : Int)) ∧
  t + 2 + lenAt O.slots s ≤ c.new.tip ∧
  ∀ i < lenAt O.slots s,
    (B ≤ t + 2 + i → c.new.slots[t + 2 + i]? = O.slots[s + 2 + i]?) ∧
    (t + 2 + i < B → ∀ v, O.slots[s + 2 + i]? = some v →
      ∃ w, c.new.slots[t + 2 + i]? = some w ∧ fwdVal c v w)

/-- The Cheney collection invariant over the collector state `c`, relative
to the immutable pre-collection heap `O` (with record starts `L`) and the
scan boundary `B`: the old heap differs from `O` only by forwarding
markers at record starts, every marker points at a faithful copy in the
new heap, copies occupy disjoint spans summing to the new tip, and the
region from the scan cursor to the tip is a chain of copied records. -/
structure Inv (O : Heap) (L : List Nat) (c : Collector) (B : Nat) : Prop where
  oldId : c.old.id = O.id
  newId : c.new.id = O.id + 1
  oldLen : c.old.slots.length = O.slots.length
  newLen : c.new.slots.length = O.slots.length
  oldDiff : ∀ p : Nat, c.old.slots[p]? = O.slots[p]? ∨ (p ∈ L ∧ (fwdAddr c p).isSome)
  fwdTarget : ∀ s ∈ L, ∀ t, fwdAddr c s = some t → FwdCopy O L c B s t
  spansDisj : ∀ s1 ∈ L, ∀ s2 ∈ L, ∀ t1 t2, fwdAddr c s1 = some t1 →
    fwdAddr c s2 = some t2 →
    s1 ≠ s2 → t1 + 2 + lenAt O.slots s1 ≤ t2 ∨ t2 + 2 + lenAt O.slots s2 ≤ t1
  tipSum : ((L.filter (fun s => (fwdAddr c s).isSome)).map (recSize O.slots)).sum
    = c.new.tip
  scanChain : ∃ M, Chain c.new.slots c.new.scan_queue M c.new.tip ∧
    ∀ t ∈ M, ∃ s ∈ L, fwdAddr c s = some t
  bLe : B ≤ c.new.tip

/-- Monotone evolution of a collector state: heap identities are stable and
forwarding markers, once installed, persist. -/
def Mono (c c' : Collector) : Prop :=
  c'.old.id = c.old.id ∧ c'.new.id = c.new.id ∧
  ∀ s t, fwdAddr c s = some t → fwdAddr c' s = some t

/-- The machine's retry-once collection protocol for an allocating or
cloning operation, described by its `try` body `attempt` (which returns
the machine state after the attempt), its `try_gc=False` variant
`noRetry`, and the full `try_gc=True` operation `full`: the attempt's
outcome passes through except for the capacity signal, which triggers
exactly one collection followed by exactly one retry whose own capacity
signal becomes the fatal out-of-memory error; the capacity signal itself
never escapes. -/
def RetryOnceProtocol (attempt : Machine → Except Err Unit × Machine)
    (noRetry full : Machine → Except Err Machine) (m : Machine) : Prop :=
  (∀ m1, attempt m = (.ok (), m1) → full m = .ok m1) ∧
  (∀ e m1, attempt m = (.error e, m1) → e ≠ .gcNeeded → full m = .error e) ∧
  (∀ m1, attempt m = (.error .gcNeeded, m1) →
    m1 = m ∧ ∃ m2, m1.garbageCollect = .ok m2 ∧ full m = noRetry m2 ∧
      (∀ m3, attempt m2 = (.ok (), m3) → noRetry m2 = .ok m3) ∧
      (∀ m3, attempt m2 = (.error .gcNeeded, m3) →
        noRetry m2 = .error (.ourError "Out of memory")) ∧
      (∀ e m3, attempt m2 = (.error e, m3) → e ≠ .gcNeeded →
        noRetry m2 = .error e)) ∧
  full m ≠ .error .gcNeeded

/-- The forwarding map of a collector state, restricted to the record
starts of the pre-collection heap: the single map through which every
root and field reference is rewritten. -/
def fwdMap (L : List Nat) (c : Collector) (s : Nat) : Option Nat :=
  if s ∈ L then fwdAddr c s else none

/-- Example heap holding a two-record cycle: the records at offsets 0 and 3,
each of length 1, point at each other. -/
def cycHeap : Heap :=
  ⟨0, [.key, .data 1, .pointer 0 3, .key, .data 1, .pointer 0 0, .null, .null], 6, 0⟩

/-- Example machine whose register A and single stack slot enter the
two-record cycle of `cycHeap` from both ends. -/
def cycMachine : Machine :=
  ⟨[("A", .pointer 0 0)], cycHeap, [.pointer 0 3]⟩

/-! # Theorems -/

theorem Heap.add_ok (h : Heap) (v : Value) (hlt : h.tip < h.slots.length) :
    h.add v = .ok ⟨h.id, h.slots.set h.tip v, h.tip + 1, h.scan_queue⟩ := by
  simp [Heap.add, hlt]

theorem copyFieldsAux_append (src : Heap) (off : Nat) (l1 l2 : List Nat) (t : Heap) :
    copyFieldsAux src off (l1 ++ l2) t =
      (copyFieldsAux src off l1 t).bind (copyFieldsAux src off l2) := by
  induction l1 generalizing t with
  | nil => simp [copyFieldsAux, Except.bind]
  | cons i rest ih =>
    rcases hg : src.get (off + 2 + i) with _ | v
    · simp [copyFieldsAux, hg, Except.bind]
    · rcases ha : t.add v with e | t1
      · simp [copyFieldsAux, hg, ha, Except.bind]
      · simp [copyFieldsAux, hg, ha, ih t1]

/-- Behaviour of the collector's element-copying loop over `List.range m`:
given in-bounds reads and enough room, it appends the source element words
in order and touches nothing else. -/
theorem copyRange_spec (m : Nat) (src : Heap) (off : Nat) (t : Heap)
    (hsrc : off + 2 + m ≤ src.slots.length) (ht : t.tip + m ≤ t.slots.length) :
    ∃ t', copyFieldsAux src off (List.range m) t = .ok t' ∧
      t'.id = t.id ∧ t'.slots.length = t.slots.length ∧ t'.tip = t.tip + m ∧
      t'.scan_queue = t.scan_queue ∧
      (∀ p, p < t.tip → t'.slots[p]? = t.slots[p]?) ∧
      (∀ j, j < m → t'.slots[t.tip + j]? = src.slots[off + 2 + j]?) ∧
      (∀ p, t.tip + m ≤ p → t'.slots[p]? = t.slots[p]?) := by
  induction m with
  | zero =>
    refine ⟨t, by simp [copyFieldsAux], rfl, rfl, by omega, rfl,
      fun p _ => rfl, fun j hj => absurd hj (by omega), fun p _ => rfl⟩
  | succ m ih =>
    obtain ⟨t1, h1, hid1, hlen1, htip1, hsq1, hpre1, hval1, hpost1⟩ :=
      ih (by omega) (by omega)
    have hread : src.get (off + 2 + m) = some src.slots[off + 2 + m] := by
      simp [Heap.get,
        List.getElem?_eq_getElem (show off + 2 + m < src.slots.length by omega)]
    have hlt : t1.tip < t1.slots.length := by omega
    refine ⟨⟨t1.id, t1.slots.set t1.tip src.slots[off + 2 + m], t1.tip + 1,
        t1.scan_queue⟩, ?_, hid1, by simpa using hlen1, by simp; omega,
        hsq1, ?_, ?_, ?_⟩
    · rw [List.range_succ, copyFieldsAux_append, h1]
      simp only [Except.bind]
      simp [copyFieldsAux, hread, Heap.add_ok t1 _ hlt]
    · intro p hp
      simp only []
      rw [List.getElem?_set_ne (show t1.tip ≠ p by omega)]
      exact hpre1 p hp
    · intro j hj
      simp only []
      rcases Nat.lt_or_ge j m with hjm | hjm
      · rw [List.getElem?_set_ne (show t1.tip ≠ t.tip + j by omega)]
        exact hval1 j hjm
      · have hjeq : j = m := by omega
        subst hjeq
        have heq : t.tip + j = t1.tip := by omega
        rw [heq, List.getElem?_set_self hlt]
        exact (List.getElem?_eq_getElem (show off + 2 + j < src.slots.length by omega)).symm
    · intro p hp
      simp only []
      rw [List.getElem?_set_ne (show t1.tip ≠ p by omega)]
      exact hpost1 p (by omega)

/-- Behaviour of `cloneToTargetHeap` on a record whose length word is a
non-negative `Data` and which fits in the target: it appends an exact copy
(`Key`, the length word, the element words) at the target's tip and returns
a pointer to it. -/
theorem cloneToTargetHeap_spec (old new : Heap) (hid off k : Nat)
    (hlen : old.slots[off + 1]? = some (.data (k : Int)))
    (hfb : off + 2 + k ≤ old.slots.length)
    (hcap : new.tip + 2 + k ≤ new.slots.length) :
    ∃ n', old.cloneToTargetHeap (.pointer hid off) new =
        .ok (.pointer new.id new.tip, n') ∧
      n'.id = new.id ∧ n'.slots.length = new.slots.length ∧
      n'.tip = new.tip + 2 + k ∧ n'.scan_queue = new.scan_queue ∧
      n'.slots[new.tip]? = some .key ∧
      n'.slots[new.tip + 1]? = some (.data (k : Int)) ∧
      (∀ j, j < k → n'.slots[new.tip + 2 + j]? = old.slots[off + 2 + j]?) ∧
      (∀ p, p < new.tip → n'.slots[p]? = new.slots[p]?) ∧
      (∀ p, new.tip + 2 + k ≤ p → n'.slots[p]? = new.slots[p]?) := by
  have hchk : new.checkCapacity ((k : Int) + 2) = .ok () := by
    simp only [Heap.checkCapacity, Heap.capacity]
    rw [if_neg (by omega)]
  have hadd1 : new.add .key =
      .ok ⟨new.id, new.slots.set new.tip .key, new.tip + 1, new.scan_queue⟩ :=
    Heap.add_ok _ _ (by omega)
  have hadd2 : (⟨new.id, new.slots.set new.tip .key, new.tip + 1,
      new.scan_queue⟩ : Heap).add (.data (k : Int)) =
      .ok ⟨new.id, (new.slots.set new.tip .key).set (new.tip + 1) (.data (k : Int)),
           new.tip + 2, new.scan_queue⟩ := by
    have := Heap.add_ok ⟨new.id, new.slots.set new.tip .key, new.tip + 1,
      new.scan_queue⟩ (.data (k : Int)) (by simp; omega)
    simpa using this
  obtain ⟨t', hrun, hid', hlen', htip', hsq', hpre', hval', hpost'⟩ :=
    copyRange_spec k old off
      ⟨new.id, (new.slots.set new.tip .key).set (new.tip + 1) (.data (k : Int)),
       new.tip + 2, new.scan_queue⟩ hfb (by simp; omega)
  simp only at hid' hlen' htip' hsq' hpre' hval' hpost'
  refine ⟨t', ?_, hid', by simpa using hlen', by omega, hsq', ?_, ?_, ?_, ?_, ?_⟩
  · simp only [Heap.cloneToTargetHeap, Heap.get, hlen, Value.value, hchk, hadd1, hadd2,
      Heap.tipPointer, Int.toNat_natCast]
    rw [hrun]
  · rw [hpre' new.tip (by omega), List.getElem?_set_ne (by omega),
      List.getElem?_set_self (by omega)]
  · rw [hpre' (new.tip + 1) (by omega), List.getElem?_set_self (by simp; omega)]
  · intro j hj
    have := hval' j hj
    rwa [show new.tip + 2 + j = (new.tip + 2) + j from rfl] at this ⊢
  · intro p hp
    rw [hpre' p (by omega), List.getElem?_set_ne (by omega),
      List.getElem?_set_ne (by omega)]
  · intro p hp
    rw [hpost' p (by omega), List.getElem?_set_ne (by omega),
      List.getElem?_set_ne (by omega)]

/-- Full behaviour of a successful `newOject` for a positive element count
covered by the stack: the record `[Key, Data n, top n stack entries]` is
written at the tip, the tip advances by `n + 2`, exactly the top `n` stack
entries are removed, and they enter the record in their stack order. -/
theorem newOject_spec (h : Heap) (n : Nat) (st : List Value)
    (hn : n ≠ 0) (hst : n ≤ st.length) (hcap : h.tip + 2 + n ≤ h.slots.length) :
    ∃ h', h.newOject n st =
        (.ok (.pointer h.id h.tip), h', st.take (st.length - n)) ∧
      h'.id = h.id ∧ h'.slots.length = h.slots.length ∧
      h'.tip = h.tip + 2 + n ∧ h'.scan_queue = h.scan_queue ∧
      h'.slots[h.tip]? = some .key ∧
      h'.slots[h.tip + 1]? = some (.data (n : Int)) ∧
      (∀ i, i < n → h'.slots[h.tip + 2 + i]? = st[st.length - n + i]?) ∧
      (∀ p, p < h.tip → h'.slots[p]? = h.slots[p]?) ∧
      (∀ p, h.tip + 2 + n ≤ p → h'.slots[p]? = h.slots[p]?) := by
  have hchk : h.checkCapacity ((n : Int) + 2) = .ok () := by
    simp only [Heap.checkCapacity, Heap.capacity]
    rw [if_neg (by omega)]
  have hadd1 : h.add .key =
      .ok ⟨h.id, h.slots.set h.tip .key, h.tip + 1, h.scan_queue⟩ :=
    Heap.add_ok _ _ (by omega)
  have hadd2 : (⟨h.id, h.slots.set h.tip .key, h.tip + 1,
      h.scan_queue⟩ : Heap).add (.data (n : Int)) =
      .ok ⟨h.id, (h.slots.set h.tip .key).set (h.tip + 1) (.data (n : Int)),
           h.tip + 2, h.scan_queue⟩ := by
    have := Heap.add_ok ⟨h.id, h.slots.set h.tip .key, h.tip + 1,
      h.scan_queue⟩ (.data (n : Int)) (by simp; omega)
    simpa using this
  set slots2 : List Value :=
    (h.slots.set h.tip .key).set (h.tip + 1) (.data (n : Int)) with hslots2
  have hlen2 : slots2.length = h.slots.length := by simp [hslots2]
  have htaken : pyTakeLast n st = st.drop (st.length - n) := by
    simp [pyTakeLast, hn]
  have htklen : (st.drop (st.length - n)).length = n := by
    simp
    omega
  set splice : List Value :=
    pySpliceAt slots2 (h.tip + 2) (h.tip + 2 + n) (pyTakeLast n st) with hsplice
  have hsplice' : splice =
      slots2.take (h.tip + 2) ++ (st.drop (st.length - n) ++ slots2.drop (h.tip + 2 + n)) := by
    simp [hsplice, pySpliceAt, htaken]
  have htake_len : (slots2.take (h.tip + 2)).length = h.tip + 2 := by
    simp [hlen2]
    omega
  have hsplen : splice.length = h.slots.length := by
    rw [hsplice']
    simp [hlen2]
    omega
  have hat : ∀ p, p < h.tip + 2 → splice[p]? = slots2[p]? := by
    intro p hp
    rw [hsplice', List.getElem?_append_left (by rw [htake_len]; omega),
      List.getElem?_take_of_lt hp]
  have hmid : ∀ i, i < n → splice[h.tip + 2 + i]? = st[st.length - n + i]? := by
    intro i hi
    rw [hsplice', List.getElem?_append_right (by rw [htake_len]; omega)]
    rw [htake_len, show h.tip + 2 + i - (h.tip + 2) = i by omega,
      List.getElem?_append_left (by rw [htklen]; omega), List.getElem?_drop]
  have hpost : ∀ p, h.tip + 2 + n ≤ p → splice[p]? = slots2[p]? := by
    intro p hp
    rw [hsplice', List.getElem?_append_right (by rw [htake_len]; omega),
      List.getElem?_append_right (by rw [htake_len, htklen]; omega),
      htake_len, htklen, List.getElem?_drop,
      show h.tip + 2 + n + (p - (h.tip + 2) - n) = p by omega]
  refine ⟨⟨h.id, splice, h.tip + 2 + n, h.scan_queue⟩, ?_, rfl, hsplen, rfl, rfl,
    ?_, ?_, hmid, ?_, ?_⟩
  · simp only [Heap.newOject, hchk, hadd1, hadd2, Heap.tipPointer]
    refine congrArg _ (congrArg _ ?_)
    simp [pyDelLast, hn]
  · rw [hat h.tip (by omega), hslots2,
      List.getElem?_set_ne (show h.tip + 1 ≠ h.tip by omega),
      List.getElem?_set_self (by omega)]
  · rw [hat (h.tip + 1) (by omega), hslots2,
      List.getElem?_set_self (by simp; omega)]
  · intro p hp
    rw [hat p (by omega), hslots2, List.getElem?_set_ne (by omega),
      List.getElem?_set_ne (by omega)]
  · intro p hp
    rw [hpost p hp, hslots2, List.getElem?_set_ne (by omega),
      List.getElem?_set_ne (by omega)]

/-! ## C6: record layout and size -/

/-- C6 counterexample: allocating the 3-element object `[11, 22, 33]` into
an empty heap leaves the tip at 5, not at 4 = LENGTH + 1 as the claim
states — the record carries a KEY word in addition to the LENGTH word. -/
theorem C6_counterexample :
    (Heap.newOject ⟨0, List.replicate 10 .null, 0, 0⟩ 3
        [.data 11, .data 22, .data 33]).2.1.tip = 5 ∧
      (5 : Nat) ≠ 3 + 1 := by decide

/-- C6 (amended): a successful allocation of `n ≥ 1` elements occupies
exactly `n + 2` words — a KEY word and the LENGTH word are the
book-keeping overhead — and the tip advances by `n + 2` (5, not 4, in the
end-to-end `[11,22,33]` example). -/
theorem C6_record_size (h : Heap) (n : Nat) (st : List Value)
    (hn : n ≠ 0) (hst : n ≤ st.length) (hcap : h.tip + 2 + n ≤ h.slots.length) :
    ∃ h' st', h.newOject n st = (.ok (.pointer h.id h.tip), h', st') ∧
      h'.tip = h.tip + (n + 2) ∧
      h'.slots[h.tip]? = some .key ∧
      h'.slots[h.tip + 1]? = some (.data (n : Int)) := by
  obtain ⟨h', hrun, _, _, htip, _, hkey, hlen, _, _, _⟩ := newOject_spec h n st hn hst hcap
  exact ⟨h', _, hrun, by omega, hkey, hlen⟩

/-- C6 witness: the amended record-size theorem applied to the end-to-end
example (3 elements into an empty 10-word heap). -/
theorem C6_record_size_witness :
    ((3 : Nat) ≠ 0 ∧
      3 ≤ ([Value.data 11, Value.data 22, Value.data 33] : List Value).length ∧
      (⟨0, List.replicate 10 .null, 0, 0⟩ : Heap).tip + 2 + 3 ≤
        (⟨0, List.replicate 10 .null, 0, 0⟩ : Heap).slots.length) ∧
    (∃ h' st', Heap.newOject ⟨0, List.replicate 10 .null, 0, 0⟩ 3
        [.data 11, .data 22, .data 33] =
        (.ok (.pointer (⟨0, List.replicate 10 .null, 0, 0⟩ : Heap).id
              (⟨0, List.replicate 10 .null, 0, 0⟩ : Heap).tip), h', st') ∧
      h'.tip = (⟨0, List.replicate 10 .null, 0, 0⟩ : Heap).tip + (3 + 2) ∧
      h'.slots[(⟨0, List.replicate 10 .null, 0, 0⟩ : Heap).tip]? = some .key ∧
      h'.slots[(⟨0, List.replicate 10 .null, 0, 0⟩ : Heap).tip + 1]? =
        some (.data (3 : Nat))) :=
  ⟨⟨by decide, by decide, by decide⟩,
   C6_record_size ⟨0, List.replicate 10 .null, 0, 0⟩ 3
     [.data 11, .data 22, .data 33] (by decide) (by decide) (by decide)⟩

/-! ## C7: the capacity-exceeded condition -/

/-- C7 counterexample: with capacity 4 and an empty heap, allocating 3
elements satisfies the claim's bound `tip + elementWords + 1 ≤ capacity`
(4 ≤ 4), yet the code raises the capacity signal, because the record needs
`elementWords + 2` words. -/
theorem C7_counterexample :
    Heap.newOject ⟨0, List.replicate 4 .null, 0, 0⟩ 3
        [.data 1, .data 2, .data 3] =
      (.error .gcNeeded, ⟨0, List.replicate 4 .null, 0, 0⟩,
       [.data 1, .data 2, .data 3]) ∧
    ¬ ((⟨0, List.replicate 4 .null, 0, 0⟩ : Heap).tip + 3 + 1 >
        (⟨0, List.replicate 4 .null, 0, 0⟩ : Heap).capacity) := by decide

/-- C7 (amended): allocation raises the capacity-exceeded signal if and
only if `tip + elementWords + 2 > capacity`, and when it raises, the heap
contents, the tip and the operand stack are unchanged (the check precedes
every write). -/
theorem C7_capacity_signal (h : Heap) (n : Nat) (st : List Value) :
    (h.capacity < h.tip + n + 2 → h.newOject n st = (.error .gcNeeded, h, st)) ∧
    (h.tip + n + 2 ≤ h.capacity →
      ∃ h' st', h.newOject n st = (.ok (.pointer h.id h.tip), h', st')) := by
  constructor
  · intro hover
    have hchk : h.checkCapacity ((n : Int) + 2) = .error .gcNeeded := by
      simp only [Heap.checkCapacity, Heap.capacity] at hover ⊢
      rw [if_pos (by omega)]
    simp [Heap.newOject, hchk]
  · intro hfits
    simp only [Heap.capacity] at hfits
    have hchk : h.checkCapacity ((n : Int) + 2) = .ok () := by
      simp only [Heap.checkCapacity, Heap.capacity]
      rw [if_neg (by omega)]
    have hadd1 : h.add .key =
        .ok ⟨h.id, h.slots.set h.tip .key, h.tip + 1, h.scan_queue⟩ :=
      Heap.add_ok _ _ (by omega)
    have hadd2 : (⟨h.id, h.slots.set h.tip .key, h.tip + 1,
        h.scan_queue⟩ : Heap).add (.data (n : Int)) =
        .ok ⟨h.id, (h.slots.set h.tip .key).set (h.tip + 1) (.data (n : Int)),
             h.tip + 2, h.scan_queue⟩ := by
      have := Heap.add_ok ⟨h.id, h.slots.set h.tip .key, h.tip + 1,
        h.scan_queue⟩ (.data (n : Int)) (by simp; omega)
      simpa using this
    refine ⟨⟨h.id,
        pySpliceAt ((h.slots.set h.tip .key).set (h.tip + 1) (.data (n : Int)))
          (h.tip + 2) (h.tip + 2 + n) (pyTakeLast n st),
        h.tip + 2 + n, h.scan_queue⟩, pyDelLast n st, ?_⟩
    simp only [Heap.newOject, hchk, hadd1, hadd2, Heap.tipPointer]

/-- C7 witness: on a 9-word heap with tip 0, a 3-element allocation is
within capacity and succeeds; the bound `0 + 3 + 2 ≤ 9` is discharged
concretely. -/
theorem C7_capacity_signal_witness :
    ((⟨0, List.replicate 9 .null, 0, 0⟩ : Heap).tip + 3 + 2 ≤
      (⟨0, List.replicate 9 .null, 0, 0⟩ : Heap).capacity) ∧
    (∃ h' st', Heap.newOject ⟨0, List.replicate 9 .null, 0, 0⟩ 3
        [.data 1, .data 2, .data 3] =
      (.ok (.pointer (⟨0, List.replicate 9 .null, 0, 0⟩ : Heap).id
            (⟨0, List.replicate 9 .null, 0, 0⟩ : Heap).tip), h', st')) :=
  ⟨by decide,
   (C7_capacity_signal ⟨0, List.replicate 9 .null, 0, 0⟩ 3
     [.data 1, .data 2, .data 3]).2 (by decide)⟩

/-! ## C8: stack-to-record element transfer -/

/-- C8 counterexample: allocating 2 elements from the stack
`[1, 2]` (2 on top, pushed last) makes the record's first element the
`Data 1` that was pushed first — not the last-pushed entry as the claim
states. -/
theorem C8_counterexample :
    (Heap.newOject ⟨0, List.replicate 8 .null, 0, 0⟩ 2
        [.data 1, .data 2]).2.1.slots[(0 : Nat) + 2]? = some (.data 1) ∧
    Value.data 1 ≠ Value.data 2 := by decide

/-- C8 (amended): for `elementWords ≥ 1` within the stack's height,
exactly the top `elementWords` entries are removed and become the record's
elements in their stack order — the last-pushed entry becomes the *last*
element, the deepest of the moved entries the first.  (For
`elementWords = 0` with a non-empty stack the source instead splices the
whole stack into the heap array, a separate slip exercised by
`Heap.newOject ⟨0, List.replicate 6 .null, 0, 0⟩ 0 [.data 7]`.) -/
theorem C8_stack_transfer (h : Heap) (n : Nat) (st : List Value)
    (hn : n ≠ 0) (hst : n ≤ st.length) (hcap : h.tip + 2 + n ≤ h.slots.length) :
    ∃ h', h.newOject n st =
        (.ok (.pointer h.id h.tip), h', st.take (st.length - n)) ∧
      (∀ i, i < n → h'.slots[h.tip + 2 + i]? = st[st.length - n + i]?) := by
  obtain ⟨h', hrun, _, _, _, _, _, _, hmid, _, _⟩ := newOject_spec h n st hn hst hcap
  exact ⟨h', hrun, hmid⟩

/-- C8 witness: moving the top two of three stacked values into a record;
all three hypotheses are discharged concretely. -/
theorem C8_stack_transfer_witness :
    ((2 : Nat) ≠ 0 ∧
      2 ≤ ([Value.data 9, Value.data 1, Value.data 2] : List Value).length ∧
      (⟨0, List.replicate 8 .null, 0, 0⟩ : Heap).tip + 2 + 2 ≤
        (⟨0, List.replicate 8 .null, 0, 0⟩ : Heap).slots.length) ∧
    (∃ h', Heap.newOject ⟨0, List.replicate 8 .null, 0, 0⟩ 2
        [.data 9, .data 1, .data 2] =
        (.ok (.pointer (⟨0, List.replicate 8 .null, 0, 0⟩ : Heap).id
              (⟨0, List.replicate 8 .null, 0, 0⟩ : Heap).tip), h',
         ([Value.data 9, Value.data 1, Value.data 2] : List Value).take
           (([Value.data 9, Value.data 1, Value.data 2] : List Value).length - 2)) ∧
      (∀ i, i < 2 →
        h'.slots[(⟨0, List.replicate 8 .null, 0, 0⟩ : Heap).tip + 2 + i]? =
          ([Value.data 9, Value.data 1, Value.data 2] : List Value)[
            ([Value.data 9, Value.data 1, Value.data 2] : List Value).length - 2 + i]?)) :=
  ⟨⟨by decide, by decide, by decide⟩,
   C8_stack_transfer ⟨0, List.replicate 8 .null, 0, 0⟩ 2
     [.data 9, .data 1, .data 2] (by decide) (by decide) (by decide)⟩

/-! ## C9: pointers used against foreign heaps -/

/-- C9 counterexample: `explode` applied to a heap holding the record
`[42]` with a pointer whose heap tag (99) is not this heap's tag succeeds
and pushes this heap's element word `42` — the foreign pointer is not
rejected, its offset is read against this heap's slots. -/
theorem C9_counterexample :
    Heap.explode ⟨0, [.key, .data 1, .data 42, .null], 4, 0⟩ (.pointer 99 0) [] =
      .ok [.data 42] ∧
    (⟨0, [.key, .data 1, .data 42, .null], 4, 0⟩ : Heap).id ≠ 99 := by decide

/-- C9 (amended): only dereference and update act on the pointer's own
heap (by construction); `explode`, `clone` and `cloneToTargetHeap` never
consult the pointer's heap identity — their result is the same for any
heap tag on the pointer, silently reading this heap's slots at the
pointer's offset. -/
theorem C9_foreign_pointers :
    (∀ (c : Collector) (off : Nat), c.deref c.old.id off = c.old.get off) ∧
    (∀ (c : Collector) (off : Nat), c.new.id ≠ c.old.id →
      c.deref c.new.id off = c.new.get off) ∧
    (∀ (h : Heap) (st : List Value) (off hid1 hid2 : Nat),
      h.explode (.pointer hid1 off) st = h.explode (.pointer hid2 off) st) ∧
    (∀ (h : Heap) (off hid1 hid2 : Nat),
      h.clone (.pointer hid1 off) = h.clone (.pointer hid2 off)) ∧
    (∀ (h target : Heap) (off hid1 hid2 : Nat),
      h.cloneToTargetHeap (.pointer hid1 off) target =
        h.cloneToTargetHeap (.pointer hid2 off) target) :=
  ⟨fun c off => by simp [Collector.deref],
   fun c off hne => by simp [Collector.deref, hne],
   fun h st off hid1 hid2 => rfl,
   fun h off hid1 hid2 => rfl,
   fun h target off hid1 hid2 => rfl⟩

/-- C9 witness: the heap-identity independence applied to the concrete
foreign-pointer `explode` of the counterexample state, and the dereference
clause at the example collector (whose to-space tag 1 differs from the
from-space tag 0). -/
theorem C9_foreign_pointers_witness :
    (collEx.new.id ≠ collEx.old.id ∧
      collEx.deref collEx.new.id 2 = collEx.new.get 2) ∧
    Heap.explode ⟨0, [.key, .data 1, .data 42, .null], 4, 0⟩ (.pointer 99 0) [] =
      Heap.explode ⟨0, [.key, .data 1, .data 42, .null], 4, 0⟩ (.pointer 0 0) [] :=
  ⟨⟨by decide, C9_foreign_pointers.2.1 collEx 2 (by decide)⟩,
   C9_foreign_pointers.2.2.1 ⟨0, [.key, .data 1, .data 42, .null], 4, 0⟩ [] 0 99 0⟩

/-! ## C4: the behaviour of forwardIfPointer -/

/-- C4 counterexample: forwarding the one-record from-space `[7]`.  Before
forwarding, the object's first word (offset 0) is a `Key`, not the LENGTH
slot: the LENGTH sits at offset 1.  After forwarding, the forwarding
marker overwrote offset 0 while the LENGTH slot still holds `Data 1` and
is not a pointer — refuting the claim's identification of the overwritten
first word with the LENGTH slot. -/
theorem C4_counterexample :
    collEx.forwardIfPointer (.pointer 0 0) =
      .ok (.pointer 1 0,
        ⟨⟨0, [.pointer 1 0, .data 1, .data 7, .null], 3, 0⟩,
         ⟨1, [.key, .data 1, .data 7, .null], 3, 0⟩⟩) ∧
    oldHeapEx.slots[0]? = some .key ∧
    oldHeapEx.slots[1]? = some (.data 1) ∧
    (⟨0, [.pointer 1 0, .data 1, .data 7, .null], 3, 0⟩ : Heap).slots[1]? =
      some (.data 1) ∧
    Value.isPointerInto (.data 1) 1 = false := by decide

/-- C4 (amended): `forwardIfPointer` (1) returns non-pointers unchanged
with no state change; (2) returns the forwarding pointer directly, copying
nothing, when the dereferenced first word is already a pointer into the new
heap; (3) otherwise copies the record into the new heap, overwrites the old
object's first word — the KEY slot, the LENGTH word at `offset + 1` being
unchanged — with the new-heap pointer as the forwarding marker, and returns
that pointer. -/
theorem C4_forwardIfPointer :
    (∀ (c : Collector) (v : Value), v.isPointer = false →
      c.forwardIfPointer v = .ok (v, c)) ∧
    (∀ (c : Collector) (hid off : Nat) (p : Value),
      c.deref hid off = some p → p.isPointerInto c.new.id = true →
      c.forwardIfPointer (.pointer hid off) = .ok (p, c)) ∧
    (∀ (c : Collector) (off k : Nat),
      c.old.id ≠ c.new.id →
      c.old.slots[off]? = some .key →
      c.old.slots[off + 1]? = some (.data (k : Int)) →
      off + 2 + k ≤ c.old.slots.length →
      c.new.tip + 2 + k ≤ c.new.slots.length →
      ∃ n', c.forwardIfPointer (.pointer c.old.id off) =
          .ok (.pointer c.new.id c.new.tip,
            ⟨{ c.old with
                slots := c.old.slots.set off (.pointer c.new.id c.new.tip) }, n'⟩) ∧
        (c.old.slots.set off (.pointer c.new.id c.new.tip))[off + 1]? =
          some (.data (k : Int)) ∧
        n'.id = c.new.id ∧ n'.tip = c.new.tip + 2 + k ∧
        n'.slots[c.new.tip]? = some .key ∧
        n'.slots[c.new.tip + 1]? = some (.data (k : Int)) ∧
        (∀ j, j < k → n'.slots[c.new.tip + 2 + j]? = c.old.slots[off + 2 + j]?)) := by
  refine ⟨?_, ?_, ?_⟩
  · intro c v hv
    cases v <;> simp [Value.isPointer] at hv ⊢ <;> rfl
  · intro c hid off p hd hp
    simp [Collector.forwardIfPointer, hd, hp]
  · intro c off k hne hkey hlen hfb hcap
    obtain ⟨n', hclone, hid', hlen', htip', hsq', hkey', hlw', hval', hpre', hpost'⟩ :=
      cloneToTargetHeap_spec c.old c.new c.old.id off k hlen hfb hcap
    have hderef : c.deref c.old.id off = some .key := by
      simp [Collector.deref, Heap.get, hkey]
    have hupd : (Collector.mk c.old n').updatePtr c.old.id off
        (.pointer c.new.id c.new.tip) =
        some ⟨{ c.old with
          slots := c.old.slots.set off (.pointer c.new.id c.new.tip) }, n'⟩ := by
      simp [Collector.updatePtr, Heap.put, show off < c.old.slots.length by omega]
    refine ⟨n', ?_, ?_, hid', htip', hkey', hlw', hval'⟩
    · simp only [Collector.forwardIfPointer, hderef, Value.isPointerInto,
        Bool.false_eq_true, if_false, hclone, hupd]
    · rw [List.getElem?_set_ne (by omega), hlen]

/-- C4 witness: the three clauses at concrete states — a `Data` passes
through, an already-forwarded pointer is returned directly, and the
example record is copied with the marker overwriting the KEY slot. -/
theorem C4_forwardIfPointer_witness :
    (Value.isPointer (.data 5) = false ∧
      collEx.forwardIfPointer (.data 5) = .ok (.data 5, collEx)) ∧
    ((⟨⟨0, [.pointer 1 0, .data 1, .data 7, .null], 3, 0⟩,
        ⟨1, [.key, .data 1, .data 7, .null], 3, 0⟩⟩ : Collector).deref 0 0 =
          some (.pointer 1 0) ∧
      Value.isPointerInto (.pointer 1 0) 1 = true ∧
      (⟨⟨0, [.pointer 1 0, .data 1, .data 7, .null], 3, 0⟩,
        ⟨1, [.key, .data 1, .data 7, .null], 3, 0⟩⟩ : Collector).forwardIfPointer
          (.pointer 0 0) =
        .ok (.pointer 1 0,
          ⟨⟨0, [.pointer 1 0, .data 1, .data 7, .null], 3, 0⟩,
           ⟨1, [.key, .data 1, .data 7, .null], 3, 0⟩⟩)) ∧
    (∃ n', collEx.forwardIfPointer (.pointer collEx.old.id 0) =
        .ok (.pointer collEx.new.id collEx.new.tip,
          ⟨{ collEx.old with
              slots := collEx.old.slots.set 0
                (.pointer collEx.new.id collEx.new.tip) }, n'⟩) ∧
      (collEx.old.slots.set 0 (.pointer collEx.new.id collEx.new.tip))[0 + 1]? =
        some (.data (1 : Nat)) ∧
      n'.id = collEx.new.id ∧ n'.tip = collEx.new.tip + 2 + 1 ∧
      n'.slots[collEx.new.tip]? = some .key ∧
      n'.slots[collEx.new.tip + 1]? = some (.data (1 : Nat)) ∧
      (∀ j, j < 1 →
        n'.slots[collEx.new.tip + 2 + j]? = collEx.old.slots[0 + 2 + j]?)) :=
  ⟨⟨by decide, C4_forwardIfPointer.1 collEx (.data 5) (by decide)⟩,
   ⟨by decide, by decide,
    C4_forwardIfPointer.2.1 _ 0 0 (.pointer 1 0) (by decide) (by decide)⟩,
   C4_forwardIfPointer.2.2 collEx 0 1 (by decide) (by decide) (by decide)
     (by decide) (by decide)⟩

/-! ## Record-chain theory -/

theorem Chain.le {slots : List Value} {a : Nat} {L : List Nat} {b : Nat}
    (h : Chain slots a L b) : a ≤ b := by
  induction h with
  | nil => exact le_refl _
  | cons s n rest t hk hl hrest ih => omega

theorem lenAt_eq {slots : List Value} {s n : Nat}
    (h : slots[s + 1]? = some (.data (n : Int))) : lenAt slots s = n := by
  simp [lenAt, h]

theorem Chain.first {slots : List Value} {a : Nat} {L : List Nat} {b : Nat}
    (h : Chain slots a L b) (hab : a < b) :
    ∃ (n : Nat) (rest : List Nat), L = a :: rest ∧ slots[a]? = some .key ∧
      slots[a + 1]? = some (.data (n : Int)) ∧ Chain slots (a + 2 + n) rest b := by
  cases h with
  | nil => omega
  | cons s n rest t hk hl hrest => exact ⟨n, rest, rfl, hk, hl, hrest⟩

theorem Chain.append {slots : List Value} {a m : Nat} {L1 L2 : List Nat} {b : Nat}
    (h1 : Chain slots a L1 m) (h2 : Chain slots m L2 b) :
    Chain slots a (L1 ++ L2) b := by
  induction h1 with
  | nil => simpa using h2
  | cons s n rest t hk hl hrest ih => exact Chain.cons s n _ b hk hl (ih h2)

theorem Chain.mem_lb {slots : List Value} {a : Nat} {L : List Nat} {b : Nat}
    (h : Chain slots a L b) {s : Nat} (hs : s ∈ L) : a ≤ s := by
  induction h with
  | nil => cases hs
  | cons s0 n rest t hk hl hrest ih =>
    rcases List.mem_cons.mp hs with h1 | h1
    · omega
    · have := ih h1
      omega

theorem Chain.mem_spec {slots : List Value} {a : Nat} {L : List Nat} {b : Nat}
    (h : Chain slots a L b) {s : Nat} (hs : s ∈ L) :
    slots[s]? = some .key ∧
    slots[s + 1]? = some (.data (lenAt slots s : Int)) ∧
    s + 2 + lenAt slots s ≤ b ∧
    (∀ p ∈ L, s < p → s + 2 + lenAt slots s ≤ p) := by
  induction h with
  | nil => cases hs
  | cons s0 n rest t hk hl hrest ih =>
    rcases List.mem_cons.mp hs with h1 | h1
    · subst h1
      have hlen : lenAt slots s = n := lenAt_eq hl
      refine ⟨hk, by rw [hlen]; exact hl, by have := hrest.le; omega, ?_⟩
      intro p hp hsp
      rcases List.mem_cons.mp hp with h2 | h2
      · omega
      · have := hrest.mem_lb h2
        omega
    · obtain ⟨k1, k2, k3, k4⟩ := ih h1
      refine ⟨k1, k2, k3, ?_⟩
      intro p hp hsp
      rcases List.mem_cons.mp hp with h2 | h2
      · have := hrest.mem_lb h1
        omega
      · exact k4 p h2 hsp

theorem Chain.not_start_inside {slots : List Value} {a : Nat} {L : List Nat} {b : Nat}
    (h : Chain slots a L b) {s p : Nat} (hs : s ∈ L) (h1 : s < p)
    (h2 : p < s + 2 + lenAt slots s) : p ∉ L := by
  intro hp
  have := (h.mem_spec hs).2.2.2 p hp h1
  omega

theorem Chain.nodup {slots : List Value} {a : Nat} {L : List Nat} {b : Nat}
    (h : Chain slots a L b) : L.Nodup := by
  induction h with
  | nil => exact List.nodup_nil
  | cons s0 n rest t hk hl hrest ih =>
    refine List.nodup_cons.mpr ⟨fun hmem => ?_, ih⟩
    have := hrest.mem_lb hmem
    omega

theorem Chain.sum {slots : List Value} {a : Nat} {L : List Nat} {b : Nat}
    (h : Chain slots a L b) : a + (L.map (recSize slots)).sum = b := by
  induction h with
  | nil => simp
  | cons s0 n rest t hk hl hrest ih =>
    have hlen : lenAt slots s0 = n := lenAt_eq hl
    simp only [List.map_cons, List.sum_cons, recSize, hlen]
    omega

theorem Chain.congr {slots slots2 : List Value} {a : Nat} {L : List Nat} {b : Nat}
    (h : Chain slots a L b)
    (heq : ∀ s ∈ L, slots2[s]? = slots[s]? ∧ slots2[s + 1]? = slots[s + 1]?) :
    Chain slots2 a L b := by
  induction h with
  | nil => exact Chain.nil _
  | cons s0 n rest t hk hl hrest ih =>
    obtain ⟨e1, e2⟩ := heq s0 (List.mem_cons_self _ _)
    exact Chain.cons s0 n rest t (by rw [e1]; exact hk) (by rw [e2]; exact hl)
      (ih fun s hs => heq s (List.mem_cons_of_mem _ hs))

theorem parseChain_sound {slots : List Value} :
    ∀ (f s t : Nat) (l : List Nat), parseChain slots f s t = some l →
      Chain slots s l t := by
  intro f
  induction f with
  | zero =>
    intro s t l h
    rw [parseChain] at h
    by_cases hst : s = t
    · rw [if_pos hst] at h
      cases h
      subst hst
      exact Chain.nil _
    · rw [if_neg hst] at h
      cases h
  | succ f ih =>
    intro s t l h
    rw [parseChain] at h
    split at h
    · cases h
      rename_i hst
      subst hst
      exact Chain.nil _
    · split at h
      · rename_i n hk hl
        split at h
        · rename_i hcond
          rcases Option.map_eq_some'.mp h with ⟨l', hl', rfl⟩
          have hc := ih (s + 2 + n.toNat) t l' hl'
          have hcast : ((n.toNat : Nat) : Int) = n := Int.toNat_of_nonneg hcond.1
          exact Chain.cons s n.toNat l' t hk (by rw [hcast]; exact hl) hc
        · cases h
      · cases h

/-! ## Collector-state bookkeeping lemmas -/

theorem Mono.refl (c : Collector) : Mono c c := ⟨rfl, rfl, fun _ _ h => h⟩

theorem Mono.comp {c c' c'' : Collector} (h1 : Mono c c') (h2 : Mono c' c'') :
    Mono c c'' :=
  ⟨h2.1.trans h1.1, h2.2.1.trans h1.2.1, fun s t h => h2.2.2 s t (h1.2.2 s t h)⟩

theorem fwdVal_mono {c c' : Collector} {v w : Value} (h : fwdVal c v w)
    (hm : Mono c c') : fwdVal c' v w := by
  cases v with
  | pointer hid s =>
    obtain ⟨t, ht, rfl⟩ := h
    exact ⟨t, hm.2.2 _ _ ht, by rw [hm.2.1]⟩
  | data n => exact h
  | key => exact h
  | null => exact h

theorem filter_sum_insert {L : List Nat} (hnd : L.Nodup) (p q : Nat → Bool)
    (f : Nat → Nat) (s0 : Nat) (hs0 : s0 ∈ L) (hold : p s0 = false)
    (hnew : q s0 = true) (hsame : ∀ s ∈ L, s ≠ s0 → q s = p s) :
    ((L.filter q).map f).sum = ((L.filter p).map f).sum + f s0 := by
  induction L with
  | nil => cases hs0
  | cons a rest ih =>
    obtain ⟨hnr, hndr⟩ := List.nodup_cons.mp hnd
    rcases List.mem_cons.mp hs0 with rfl | hmem
    · have hrest_eq : rest.filter q = rest.filter p :=
        List.filter_congr fun s hs =>
          hsame s (List.mem_cons_of_mem _ hs) (by rintro rfl; exact hnr hs)
      simp [List.filter_cons, hnew, hold, hrest_eq]
      omega
    · have hne : a ≠ s0 := by rintro rfl; exact hnr hmem
      have hqa : q a = p a := hsame a (List.mem_cons_self _ _) hne
      have hih := ih hndr hmem
        (fun s hs hne2 => hsame s (List.mem_cons_of_mem _ hs) hne2)
      rcases hpa : p a with _ | _ <;>
        (simp [List.filter_cons, hqa, hpa, hih]; try omega)

theorem filtered_sum_le (L : List Nat) (p : Nat → Bool) (f : Nat → Nat) :
    ((L.filter p).map f).sum ≤ (L.map f).sum :=
  List.Sublist.sum_le_sum ((List.filter_sublist L).map f)
    (fun _ _ => Nat.zero_le _)

/-- The copies never outgrow the pre-collection tip: their sizes are the
sizes of distinct old records. -/
theorem Inv.newTip_le {O : Heap} {L : List Nat} {c : Collector} {B : Nat}
    (hwf : HeapWF O L) (hinv : Inv O L c B) : c.new.tip ≤ O.tip := by
  have h2 := filtered_sum_le L (fun s => (fwdAddr c s).isSome) (recSize O.slots)
  rw [hinv.tipSum] at h2
  have h3 := hwf.chain.sum
  omega

theorem Inv.tip_slots {O : Heap} {L : List Nat} {c : Collector} {B : Nat}
    (hwf : HeapWF O L) (hinv : Inv O L c B) :
    c.new.tip ≤ c.new.slots.length := by
  have := hinv.newTip_le hwf
  have := hwf.tipLe
  have := hinv.newLen
  omega

/-- Room for one more copy: an old record not yet forwarded fits above the
new tip within the pre-collection tip (hence within capacity). -/
theorem Inv.capacity_room {O : Heap} {L : List Nat} {c : Collector} {B : Nat}
    (hwf : HeapWF O L) (hinv : Inv O L c B) {s0 : Nat} (hs0 : s0 ∈ L)
    (hnf : fwdAddr c s0 = none) :
    c.new.tip + (2 + lenAt O.slots s0) ≤ O.tip := by
  have hins := filter_sum_insert hwf.chain.nodup
    (fun s => (fwdAddr c s).isSome)
    (fun s => (fwdAddr c s).isSome || decide (s = s0))
    (recSize O.slots) s0 hs0 (by simp [hnf]) (by simp)
    (fun s hs hne => by simp [hne])
  have hle := filtered_sum_le L
    (fun s => (fwdAddr c s).isSome || decide (s = s0)) (recSize O.slots)
  rw [hins, hinv.tipSum] at hle
  have h3 := hwf.chain.sum
  simp only [recSize] at hle
  omega

theorem Inv.old_at_nonstart {O : Heap} {L : List Nat} {c : Collector} {B : Nat}
    (hinv : Inv O L c B) {p : Nat} (hp : p ∉ L) :
    c.old.slots[p]? = O.slots[p]? := by
  rcases hinv.oldDiff p with h | h
  · exact h
  · exact absurd h.1 hp

theorem Inv.old_inside {O : Heap} {L : List Nat} {c : Collector} {B : Nat}
    (hwf : HeapWF O L) (hinv : Inv O L c B) {s j : Nat} (hs : s ∈ L)
    (hj : 0 < j) (hj2 : j < 2 + lenAt O.slots s) :
    c.old.slots[s + j]? = O.slots[s + j]? :=
  hinv.old_at_nonstart
    (hwf.chain.not_start_inside hs (by omega) (by omega))

theorem Inv.old_at_start {O : Heap} {L : List Nat} {c : Collector} {B : Nat}
    (hwf : HeapWF O L) (hinv : Inv O L c B) {s : Nat} (hs : s ∈ L) :
    (fwdAddr c s = none ∧ c.old.slots[s]? = some .key) ∨
      ∃ t, fwdAddr c s = some t := by
  rcases hinv.oldDiff s with heq | ⟨_, hsome⟩
  · left
    have hck : c.old.slots[s]? = some .key := by
      rw [heq]
      exact (hwf.chain.mem_spec hs).1
    exact ⟨by simp [fwdAddr, hck], hck⟩
  · right
    exact Option.isSome_iff_exists.mp hsome

theorem field_exists {O : Heap} {L : List Nat} (hwf : HeapWF O L) {s i : Nat}
    (hs : s ∈ L) (hi : i < lenAt O.slots s) :
    ∃ v, O.slots[s + 2 + i]? = some v ∧ okVal O.id L v := by
  have hb := (hwf.chain.mem_spec hs).2.2.1
  have hlt : s + 2 + i < O.slots.length := by
    have := hwf.tipLe
    omega
  exact ⟨O.slots[s + 2 + i], List.getElem?_eq_getElem hlt,
    hwf.fieldsOk s hs i hi _ (List.getElem?_eq_getElem hlt)⟩

theorem fwdAddr_elim {c : Collector} {s t : Nat} (h : fwdAddr c s = some t) :
    c.old.slots[s]? = some (.pointer c.new.id t) := by
  unfold fwdAddr at h
  split at h
  · rename_i hid t' heq
    split at h
    · rename_i hcond
      cases h
      rw [heq, hcond]
    · cases h
  · cases h

/-! ## The forwarding step preserves the collection invariant -/

theorem forwardIfPointer_spec {O : Heap} {L : List Nat} {c : Collector} {B : Nat}
    (hwf : HeapWF O L) (hinv : Inv O L c B) (v : Value) (hv : okVal O.id L v) :
    ∃ v' c', c.forwardIfPointer v = .ok (v', c') ∧ Inv O L c' B ∧ Mono c c' ∧
      fwdVal c' v v' ∧
      c'.new.scan_queue = c.new.scan_queue ∧
      c.new.tip ≤ c'.new.tip ∧
      (∀ p, p < c.new.tip → c'.new.slots[p]? = c.new.slots[p]?) := by
  cases v with
  | data m => exact ⟨_, c, rfl, hinv, Mono.refl c, rfl, rfl, le_refl _, fun p _ => rfl⟩
  | key => exact ⟨_, c, rfl, hinv, Mono.refl c, rfl, rfl, le_refl _, fun p _ => rfl⟩
  | null => exact ⟨_, c, rfl, hinv, Mono.refl c, rfl, rfl, le_refl _, fun p _ => rfl⟩
  | pointer hid s =>
    obtain ⟨rfl, hs⟩ : hid = O.id ∧ s ∈ L := hv
    rcases hinv.old_at_start hwf hs with ⟨hnf, hck⟩ | ⟨t, hft⟩
    case pointer.intro.inr.intro =>
      -- already forwarded: the marker is returned, nothing changes
      have hd : c.deref O.id s = some (.pointer c.new.id t) := by
        simp only [Collector.deref, if_pos hinv.oldId.symm, Heap.get]
        exact fwdAddr_elim hft
      refine ⟨.pointer c.new.id t, c, ?_, hinv, Mono.refl c, ⟨t, hft, rfl⟩,
        rfl, le_refl _, fun p _ => rfl⟩
      simp only [Collector.forwardIfPointer, hd]
      rw [if_pos (by simp [Value.isPointerInto])]
    case pointer.intro.inl.intro =>
      -- not yet forwarded: clone the record, install the marker
      set n := lenAt O.slots s with hn
      obtain ⟨hOk, hOl, hOb, _⟩ := hwf.chain.mem_spec hs
      have hslt : s < c.old.slots.length := by
        have := hwf.tipLe
        have := hinv.oldLen
        omega
      have hclen : c.old.slots[s + 1]? = some (.data (n : Int)) := by
        rw [show s + 1 = s + 1 from rfl]
        have := hinv.old_inside hwf hs (j := 1) (by omega) (by omega)
        rw [this]
        exact hOl
      have hroom := hinv.capacity_room hwf hs hnf
      have hcap : c.new.tip + 2 + n ≤ c.new.slots.length := by
        have := hwf.tipLe
        have := hinv.newLen
        omega
      have hfb : s + 2 + n ≤ c.old.slots.length := by
        have := hwf.tipLe
        have := hinv.oldLen
        omega
      obtain ⟨n', hclone, hid', hlen', htip', hsq', hkey', hlenw', hval', hpre', hpost'⟩ :=
        cloneToTargetHeap_spec c.old c.new O.id s n hclen hfb hcap
      set np : Value := .pointer c.new.id c.new.tip with hnp
      set c2 : Collector :=
        ⟨⟨c.old.id, c.old.slots.set s np, c.old.tip, c.old.scan_queue⟩, n'⟩ with hc2
      have hc2slots : c2.new.slots = n'.slots := rfl
      have hct : c2.new.tip = c.new.tip + 2 + n := htip'
      have hofield : ∀ j, j < n →
          c.old.slots[s + 2 + j]? = O.slots[s + 2 + j]? := by
        intro j hj
        have := hinv.old_inside hwf hs (j := 2 + j) (by omega) (by omega)
        rwa [show s + (2 + j) = s + 2 + j by omega] at this
      -- the forwarding marker just installed
      have hfwd2_s : fwdAddr c2 s = some c.new.tip := by
        unfold fwdAddr
        rw [show c2.old.slots = c.old.slots.set s np from rfl,
          List.getElem?_set_self hslt, hnp]
        show (if c.new.id = n'.id then some c.new.tip else none) = some c.new.tip
        rw [if_pos hid'.symm]
      have hfo : ∀ p, p ≠ s → fwdAddr c2 p = fwdAddr c p := by
        intro p hp
        unfold fwdAddr
        rw [show c2.old.slots = c.old.slots.set s np from rfl,
          List.getElem?_set_ne (Ne.symm hp),
          show c2.new.id = c.new.id from hid']
      have hmono : Mono c c2 := by
        refine ⟨rfl, hid', fun p t' hpt => ?_⟩
        have hps : p ≠ s := by
          intro h
          rw [h, hnf] at hpt
          cases hpt
        rw [hfo p hps]
        exact hpt
      have hrun : c.forwardIfPointer (.pointer O.id s) = .ok (np, c2) := by
        have hd : c.deref O.id s = some .key := by
          simp only [Collector.deref, if_pos hinv.oldId.symm, Heap.get]
          exact hck
        have hupd : (Collector.mk c.old n').updatePtr O.id s np =
            some c2 := by
          simp only [Collector.updatePtr]
          rw [if_pos (show O.id = (Collector.mk c.old n').old.id from hinv.oldId.symm)]
          simp only [Heap.put, if_pos hslt, Option.map_some']
        simp only [Collector.forwardIfPointer, hd]
        rw [if_neg (by simp [Value.isPointerInto])]
        rw [hclone]
        simp only [hupd]
      have hinv2 : Inv O L c2 B := by
        refine ⟨hinv.oldId, hid'.trans hinv.newId, by simpa using hinv.oldLen,
          hlen'.trans hinv.newLen, ?_, ?_, ?_, ?_, ?_, ?_⟩
        · -- oldDiff
          intro p
          by_cases hp : p = s
          · subst hp
            exact Or.inr ⟨hs, by rw [hfwd2_s]; rfl⟩
          · have hset : c2.old.slots[p]? = c.old.slots[p]? := by
              rw [show c2.old.slots = c.old.slots.set s np from rfl,
                List.getElem?_set_ne (Ne.symm hp)]
            rcases hinv.oldDiff p with h | ⟨hpL, hsome⟩
            · exact Or.inl (by rw [hset]; exact h)
            · exact Or.inr ⟨hpL, by rw [hfo p hp]; exact hsome⟩
        · -- fwdTarget
          intro s1 hs1L t1 hf1
          by_cases hs1 : s1 = s
          · subst hs1
            rw [hfwd2_s] at hf1
            cases hf1
            refine ⟨hs, by rw [hc2slots]; exact hkey',
              by rw [hc2slots]; exact hlenw', by omega, ?_⟩
            intro i hi
            constructor
            · intro _
              rw [hc2slots, hval' i hi]
              exact hofield i hi
            · intro hlt
              have := hinv.bLe
              omega
          · rw [hfo s1 hs1] at hf1
            obtain ⟨hmem1, hk1, hl1, hb1, hfields1⟩ := hinv.fwdTarget s1 hs1L t1 hf1
            refine ⟨hmem1, by rw [hc2slots, hpre' t1 (by omega)]; exact hk1,
              by rw [hc2slots, hpre' (t1 + 1) (by omega)]; exact hl1, by omega, ?_⟩
            intro i hi
            obtain ⟨hcopy1, hdone1⟩ := hfields1 i hi
            constructor
            · intro hB
              rw [hc2slots, hpre' (t1 + 2 + i) (by omega)]
              exact hcopy1 hB
            · intro hlt v0 hv0
              obtain ⟨w, hw, hfw⟩ := hdone1 hlt v0 hv0
              exact ⟨w, by rw [hc2slots, hpre' (t1 + 2 + i) (by omega)]; exact hw,
                fwdVal_mono hfw hmono⟩
        · -- spansDisj
          intro s1 hs1L s2 hs2L t1 t2 hf1 hf2 hne
          by_cases hs1 : s1 = s <;> by_cases hs2 : s2 = s
          · exact absurd (hs1.trans hs2.symm) hne
          · subst hs1
            rw [hfwd2_s] at hf1
            cases hf1
            rw [hfo s2 hs2] at hf2
            have hb2 := (hinv.fwdTarget s2 hs2L t2 hf2).2.2.2.1
            omega
          · subst hs2
            rw [hfwd2_s] at hf2
            cases hf2
            rw [hfo s1 hs1] at hf1
            have hb1 := (hinv.fwdTarget s1 hs1L t1 hf1).2.2.2.1
            omega
          · rw [hfo s1 hs1] at hf1
            rw [hfo s2 hs2] at hf2
            exact hinv.spansDisj s1 hs1L s2 hs2L t1 t2 hf1 hf2 hne
        · -- tipSum
          have hins := filter_sum_insert hwf.chain.nodup
            (fun x => (fwdAddr c x).isSome)
            (fun x => (fwdAddr c2 x).isSome)
            (recSize O.slots) s hs (by simp [hnf]) (by simp [hfwd2_s])
            (fun x _ hxne => by simp only [hfo x hxne])
          rw [show c2.new.tip = n'.tip from rfl, htip', hins, hinv.tipSum]
          simp only [recSize, ← hn]
          omega
        · -- scanChain
          obtain ⟨M, hM, hMsur⟩ := hinv.scanChain
          have hM2 : Chain n'.slots c.new.scan_queue M c.new.tip := by
            refine hM.congr fun m hm => ?_
            have hmb := (hM.mem_spec hm).2.2.1
            have hml := hM.mem_lb hm
            exact ⟨hpre' m (by omega), hpre' (m + 1) (by omega)⟩
          have hnewrec : Chain n'.slots c.new.tip [c.new.tip] (c.new.tip + 2 + n) :=
            Chain.cons _ n [] _ hkey' hlenw' (Chain.nil _)
          have hfull : Chain n'.slots c.new.scan_queue (M ++ [c.new.tip])
              (c.new.tip + 2 + n) := hM2.append hnewrec
          refine ⟨M ++ [c.new.tip], ?_, ?_⟩
          · rw [hc2slots, show c2.new.scan_queue = n'.scan_queue from rfl, hsq', hct]
            exact hfull
          · intro t2 ht2
            rcases List.mem_append.mp ht2 with h | h
            · obtain ⟨s2, hs2L, hs2⟩ := hMsur t2 h
              exact ⟨s2, hs2L, hmono.2.2 s2 t2 hs2⟩
            · rw [List.mem_singleton.mp h]
              exact ⟨s, hs, hfwd2_s⟩
        · -- bLe
          have := hinv.bLe
          rw [show c2.new.tip = n'.tip from rfl, htip']
          omega
      refine ⟨np, c2, hrun, hinv2, hmono, ?_, ?_, ?_, ?_⟩
      · exact ⟨c.new.tip, hfwd2_s, by rw [hnp, show c2.new.id = c.new.id from hid']⟩
      · rw [show c2.new.scan_queue = n'.scan_queue from rfl, hsq']
      · rw [show c2.new.tip = n'.tip from rfl, htip']
        omega
      · intro p hp
        rw [show c2.new.slots = n'.slots from rfl, hpre' p hp]

/-! ## The root phase preserves the invariant -/

theorem visitValueStack_spec {O : Heap} {L : List Nat} (hwf : HeapWF O L) :
    ∀ (stack : List Value) (c : Collector) (B : Nat), Inv O L c B →
      (∀ v ∈ stack, okVal O.id L v) →
      ∃ stack' c', c.visitValueStack stack = .ok (stack', c') ∧ Inv O L c' B ∧
        Mono c c' ∧ List.Forall₂ (fun v w => fwdVal c' v w) stack stack' ∧
        c'.new.scan_queue = c.new.scan_queue ∧ c.new.tip ≤ c'.new.tip ∧
        (∀ p, p < c.new.tip → c'.new.slots[p]? = c.new.slots[p]?) := by
  intro stack
  induction stack with
  | nil =>
    intro c B hinv _
    exact ⟨[], c, rfl, hinv, Mono.refl c, List.Forall₂.nil, rfl, le_refl _,
      fun _ _ => rfl⟩
  | cons v rest ih =>
    intro c B hinv hvals
    obtain ⟨v2, c1, hrun1, hinv1, hm1, hfw1, hsq1, htp1, hsl1⟩ :=
      forwardIfPointer_spec hwf hinv v (hvals v (List.mem_cons_self _ _))
    obtain ⟨rest2, c2, hrun2, hinv2, hm2, hfw2, hsq2, htp2, hsl2⟩ :=
      ih c1 B hinv1 (fun w hw => hvals w (List.mem_cons_of_mem _ hw))
    refine ⟨v2 :: rest2, c2, ?_, hinv2, hm1.comp hm2,
      List.Forall₂.cons (fwdVal_mono hfw1 hm2) hfw2, hsq2.trans hsq1,
      le_trans htp1 htp2,
      fun p hp => (hsl2 p (lt_of_lt_of_le hp htp1)).trans (hsl1 p hp)⟩
    simp only [Collector.visitValueStack, hrun1, hrun2]

theorem visitRegisters_spec {O : Heap} {L : List Nat} (hwf : HeapWF O L) :
    ∀ (regs : List (String × Value)) (c : Collector) (B : Nat), Inv O L c B →
      (∀ kv ∈ regs, okVal O.id L kv.2) →
      ∃ regs' c', c.visitRegisters regs = .ok (regs', c') ∧ Inv O L c' B ∧
        Mono c c' ∧
        List.Forall₂ (fun kv kw => kw.1 = kv.1 ∧ fwdVal c' kv.2 kw.2) regs regs' ∧
        c'.new.scan_queue = c.new.scan_queue ∧ c.new.tip ≤ c'.new.tip ∧
        (∀ p, p < c.new.tip → c'.new.slots[p]? = c.new.slots[p]?) := by
  intro regs
  induction regs with
  | nil =>
    intro c B hinv _
    exact ⟨[], c, rfl, hinv, Mono.refl c, List.Forall₂.nil, rfl, le_refl _,
      fun _ _ => rfl⟩
  | cons kv rest ih =>
    intro c B hinv hvals
    obtain ⟨k, v⟩ := kv
    have hstep : ∃ v2 c1,
        (if v.isPointer then c.forwardIfPointer v else .ok (v, c)) = .ok (v2, c1) ∧
        Inv O L c1 B ∧ Mono c c1 ∧ fwdVal c1 v v2 ∧
        c1.new.scan_queue = c.new.scan_queue ∧ c.new.tip ≤ c1.new.tip ∧
        (∀ p, p < c.new.tip → c1.new.slots[p]? = c.new.slots[p]?) := by
      by_cases hvp : v.isPointer = true
      · rw [if_pos hvp]
        exact forwardIfPointer_spec hwf hinv v (hvals (k, v) (List.mem_cons_self _ _))
      · rw [if_neg hvp]
        refine ⟨v, c, rfl, hinv, Mono.refl c, ?_, rfl, le_refl _, fun _ _ => rfl⟩
        cases v with
        | pointer hid s => exact absurd rfl hvp
        | data m => rfl
        | key => rfl
        | null => rfl
    obtain ⟨v2, c1, hrun1, hinv1, hm1, hfw1, hsq1, htp1, hsl1⟩ := hstep
    obtain ⟨rest2, c2, hrun2, hinv2, hm2, hfw2, hsq2, htp2, hsl2⟩ :=
      ih c1 B hinv1 (fun kw hw => hvals kw (List.mem_cons_of_mem _ hw))
    refine ⟨(k, v2) :: rest2, c2, ?_, hinv2, hm1.comp hm2,
      List.Forall₂.cons ⟨rfl, fwdVal_mono hfw1 hm2⟩ hfw2, hsq2.trans hsq1,
      le_trans htp1 htp2,
      fun p hp => (hsl2 p (lt_of_lt_of_le hp htp1)).trans (hsl1 p hp)⟩
    simp only [Collector.visitRegisters, hrun1, hrun2]

/-! ## The scan phase preserves the invariant -/

theorem scanFields_spec {O : Heap} {L : List Nat} (hwf : HeapWF O L)
    {s t0 : Nat} (hsL : s ∈ L) :
    ∀ (k j : Nat) (c : Collector), Inv O L c (t0 + 2 + j) →
      fwdAddr c s = some t0 →
      j + k = lenAt O.slots s →
      t0 + 2 + lenAt O.slots s ≤ c.new.scan_queue →
      ∃ c', scanFields t0 (List.range' j k) c = .ok c' ∧
        Inv O L c' (t0 + 2 + j + k) ∧ Mono c c' ∧
        c'.new.scan_queue = c.new.scan_queue ∧
        c'.new.slots.length = c.new.slots.length := by
  intro k
  induction k with
  | zero =>
    intro j c hinv hfs hjk hsq
    exact ⟨c, rfl, hinv, Mono.refl c, rfl, rfl⟩
  | succ k ih =>
    intro j c hinv hfs hjk hsq
    set q := t0 + 2 + j with hq
    have hjlen : j < lenAt O.slots s := by omega
    obtain ⟨hsmem, hkey0, hlen0, hbound0, hfields0⟩ := hinv.fwdTarget s hsL t0 hfs
    obtain ⟨v, hOv, hvok⟩ := field_exists hwf hsL hjlen
    have hcopy : c.new.slots[q]? = O.slots[s + 2 + j]? :=
      (hfields0 j hjlen).1 (le_refl _)
    have hget : c.new.get q = some v := by
      rw [Heap.get, hcopy, hOv]
    obtain ⟨v2, c1, hrun1, hinv1, hm1, hfw1, hsq1, htp1, hsl1⟩ :=
      forwardIfPointer_spec hwf hinv v hvok
    have hfs1 : fwdAddr c1 s = some t0 := hm1.2.2 s t0 hfs
    obtain ⟨_, hkey1, hlen1, hbound1, hfields1⟩ := hinv1.fwdTarget s hsL t0 hfs1
    have hqlt : q < c1.new.slots.length := by
      have := hinv1.tip_slots hwf
      omega
    set nh : Heap := ⟨c1.new.id, c1.new.slots.set q v2, c1.new.tip,
      c1.new.scan_queue⟩ with hnh
    have hput : c1.new.put q v2 = some nh := by
      simp only [Heap.put, if_pos hqlt]
    set c3 : Collector := ⟨c1.old, nh⟩ with hc3
    have hfa3 : ∀ x, fwdAddr c3 x = fwdAddr c1 x := fun x => rfl
    have hm3 : Mono c1 c3 := ⟨rfl, rfl, fun x t hx => by rw [hfa3]; exact hx⟩
    have hfw3 : fwdVal c3 v v2 := fwdVal_mono hfw1 hm3
    have hc3slots : c3.new.slots = c1.new.slots.set q v2 := rfl
    have hc3tip : c3.new.tip = c1.new.tip := rfl
    have hc3sq : c3.new.scan_queue = c1.new.scan_queue := rfl
    have hinv3 : Inv O L c3 (q + 1) := by
      refine ⟨hinv1.oldId, hinv1.newId, hinv1.oldLen,
        by rw [hc3slots, List.length_set]; exact hinv1.newLen, ?_, ?_, ?_, ?_, ?_, ?_⟩
      · intro p
        rcases hinv1.oldDiff p with h | ⟨hL, hsome⟩
        · exact Or.inl h
        · exact Or.inr ⟨hL, by rw [hfa3]; exact hsome⟩
      · -- fwdTarget with boundary raised past the just-rewritten slot
        intro s1 hs1L t1 hf1
        rw [hfa3] at hf1
        obtain ⟨hm1', hk1, hl1, hb1, hfl1⟩ := hinv1.fwdTarget s1 hs1L t1 hf1
        by_cases hs1s : s1 = s
        · subst hs1s
          have ht1 : t1 = t0 := by
            rw [hfs1] at hf1
            exact (Option.some_inj.mp hf1).symm
          rw [ht1] at hk1 hl1 hb1 hfl1 ⊢
          refine ⟨hsL, by rw [hc3slots, List.getElem?_set_ne (by omega)]; exact hk1,
            by rw [hc3slots, List.getElem?_set_ne (by omega)]; exact hl1,
            by rw [hc3tip]; exact hb1, ?_⟩
          intro i hilen
          rcases Nat.lt_trichotomy i j with hij | hij | hij
          · -- already-processed field: stays processed
            constructor
            · intro hge
              omega
            · intro _ v0 hv0
              obtain ⟨w, hw, hfw⟩ := (hfl1 i hilen).2 (by omega) v0 hv0
              exact ⟨w, by rw [hc3slots, List.getElem?_set_ne (by omega)]; exact hw,
                fwdVal_mono hfw hm3⟩
          · -- the field just rewritten
            subst hij
            constructor
            · intro hge
              omega
            · intro _ v0 hv0
              rw [hOv] at hv0
              cases hv0
              refine ⟨v2, ?_, hfw3⟩
              rw [hc3slots, show t0 + 2 + i = q from rfl,
                List.getElem?_set_self hqlt]
          · -- not yet processed: still a verbatim copy
            constructor
            · intro _
              rw [hc3slots, List.getElem?_set_ne (by omega)]
              exact (hfl1 i hilen).1 (by omega)
            · intro hlt
              omega
        · -- a different record: its span does not contain the rewritten slot
          have hdisj := hinv1.spansDisj s1 hs1L s hsL t1 t0 hf1 hfs1 hs1s
          have hqout : ∀ pos, t1 ≤ pos → pos < t1 + 2 + lenAt O.slots s1 →
              q ≠ pos := by
            intro pos h1 h2
            omega
          refine ⟨hm1',
            by rw [hc3slots, List.getElem?_set_ne (hqout t1 (le_refl _) (by omega))]
               exact hk1,
            by rw [hc3slots, List.getElem?_set_ne (hqout (t1 + 1) (by omega) (by omega))]
               exact hl1,
            by rw [hc3tip]; exact hb1, ?_⟩
          intro i hilen
          have hne := hqout (t1 + 2 + i) (by omega) (by omega)
          constructor
          · intro hge
            rw [hc3slots, List.getElem?_set_ne hne]
            exact (hfl1 i hilen).1 (by omega)
          · intro hlt v0 hv0
            obtain ⟨w, hw, hfw⟩ := (hfl1 i hilen).2 (by omega) v0 hv0
            exact ⟨w, by rw [hc3slots, List.getElem?_set_ne hne]; exact hw,
              fwdVal_mono hfw hm3⟩
      · -- spansDisj
        intro s1 hs1L s2 hs2L t1 t2 hf1 hf2 hne
        rw [hfa3] at hf1 hf2
        exact hinv1.spansDisj s1 hs1L s2 hs2L t1 t2 hf1 hf2 hne
      · -- tipSum
        have hfil : (L.filter fun x => (fwdAddr c3 x).isSome) =
            (L.filter fun x => (fwdAddr c1 x).isSome) :=
          List.filter_congr fun x _ => by rw [hfa3]
        rw [hfil, hc3tip]
        exact hinv1.tipSum
      · -- scanChain
        obtain ⟨M, hM, hMsur⟩ := hinv1.scanChain
        refine ⟨M, ?_, ?_⟩
        · rw [hc3sq, hc3tip]
          refine Chain.congr hM fun m hm => ?_
          have hml := hM.mem_lb hm
          have hqm : q < c1.new.scan_queue := by
            rw [hsq1]
            omega
          exact ⟨by rw [hc3slots, List.getElem?_set_ne (by omega)],
            by rw [hc3slots, List.getElem?_set_ne (by omega)]⟩
        · intro t2 ht2
          obtain ⟨s2, hs2L, hs2⟩ := hMsur t2 ht2
          exact ⟨s2, hs2L, by rw [hfa3]; exact hs2⟩
      · -- bLe
        rw [hc3tip]
        omega
    have hfs3 : fwdAddr c3 s = some t0 := by rw [hfa3]; exact hfs1
    have hsq3 : t0 + 2 + lenAt O.slots s ≤ c3.new.scan_queue := by
      rw [hc3sq, hsq1]
      omega
    have hinv3' : Inv O L c3 (t0 + 2 + (j + 1)) := hinv3
    obtain ⟨c4, hrun4, hinv4, hm4, hsq4, hlen4⟩ :=
      ih (j + 1) c3 hinv3' hfs3 (by omega) hsq3
    refine ⟨c4, ?_, ?_, hm1.comp (hm3.comp hm4), ?_, ?_⟩
    · show scanFields t0 (j :: List.range' (j + 1) k) c = .ok c4
      simp only [scanFields, hget, hrun1, hput]
      exact hrun4
    · have : t0 + 2 + (j + 1) + k = t0 + 2 + j + (k + 1) := by omega
      rwa [this] at hinv4
    · rw [hsq4, hc3sq, hsq1]
    · rw [hlen4, hc3slots, List.length_set, hinv1.newLen, hinv.newLen]

theorem Inv.scan_le {O : Heap} {L : List Nat} {c : Collector} {B : Nat}
    (hinv : Inv O L c B) : c.new.scan_queue ≤ c.new.tip := by
  obtain ⟨M, hM, _⟩ := hinv.scanChain
  exact hM.le

theorem gcScanNextObject_spec {O : Heap} {L : List Nat} (hwf : HeapWF O L)
    {c : Collector} (hinv : Inv O L c c.new.scan_queue) :
    (c.new.tip ≤ c.new.scan_queue → c.gcScanNextObject = .ok (false, c)) ∧
    (c.new.scan_queue < c.new.tip →
      ∃ c', c.gcScanNextObject = .ok (true, c') ∧ Inv O L c' c'.new.scan_queue ∧
        Mono c c' ∧ c.new.scan_queue + 2 ≤ c'.new.scan_queue ∧
        c'.new.slots.length = c.new.slots.length) := by
  constructor
  · intro hge
    simp only [Collector.gcScanNextObject, if_neg (Nat.not_lt.mpr hge)]
  · intro hS
    set S := c.new.scan_queue with hSdef
    obtain ⟨M, hM, hMsur⟩ := hinv.scanChain
    obtain ⟨n0, M2, hMeq, hkS, hlS, hM2⟩ := hM.first hS
    obtain ⟨s, hsL, hfsS⟩ := hMsur S (by rw [hMeq]; exact List.mem_cons_self _ _)
    obtain ⟨_, hkey', hlen', hbound', hfields'⟩ := hinv.fwdTarget s hsL S hfsS
    have hn0 : n0 = lenAt O.slots s := by
      rw [hlS] at hlen'
      exact_mod_cast (Value.data.injEq _ _).mp (Option.some_inj.mp hlen')
    have hget : c.new.get (S + 1) = some (.data (n0 : Int)) := hlS
    have htn : ((S : Int) + 2 + (n0 : Int)).toNat = S + 2 + n0 := by omega
    set c1 : Collector :=
      ⟨c.old, ⟨c.new.id, c.new.slots, c.new.tip, S + 2 + n0⟩⟩ with hc1
    have hfa1 : ∀ x, fwdAddr c1 x = fwdAddr c x := fun x => rfl
    have hm1 : Mono c c1 := ⟨rfl, rfl, fun x t hx => by rw [hfa1]; exact hx⟩
    have hinv1 : Inv O L c1 (S + 2) := by
      refine ⟨hinv.oldId, hinv.newId, hinv.oldLen, hinv.newLen, ?_, ?_, ?_, ?_, ?_, ?_⟩
      · intro p
        rcases hinv.oldDiff p with h | ⟨hL, hsome⟩
        · exact Or.inl h
        · exact Or.inr ⟨hL, by rw [hfa1]; exact hsome⟩
      · intro s1 hs1L t1 hf1
        rw [hfa1] at hf1
        obtain ⟨hm1', hk1, hl1, hb1, hfl1⟩ := hinv.fwdTarget s1 hs1L t1 hf1
        refine ⟨hm1', hk1, hl1, hb1, ?_⟩
        intro i hilen
        constructor
        · intro hge
          exact (hfl1 i hilen).1 (by omega)
        · intro hlt v0 hv0
          have hpos : t1 + 2 + i < S := by
            by_cases hs1s : s1 = s
            · subst hs1s
              have ht1 : t1 = S := by
                rw [hfsS] at hf1
                exact (Option.some_inj.mp hf1).symm
              omega
            · have hdisj := hinv.spansDisj s1 hs1L s hsL t1 S hf1 hfsS hs1s
              omega
          obtain ⟨w, hw, hfw⟩ := (hfl1 i hilen).2 hpos v0 hv0
          exact ⟨w, hw, fwdVal_mono hfw hm1⟩
      · intro s1 hs1L s2 hs2L t1 t2 hf1 hf2 hne
        rw [hfa1] at hf1 hf2
        exact hinv.spansDisj s1 hs1L s2 hs2L t1 t2 hf1 hf2 hne
      · exact hinv.tipSum
      · refine ⟨M2, hM2, ?_⟩
        intro t2 ht2
        obtain ⟨s2, hs2L, hs2⟩ := hMsur t2 (by rw [hMeq]; exact List.mem_cons_of_mem _ ht2)
        exact ⟨s2, hs2L, by rw [hfa1]; exact hs2⟩
      · show S + 2 ≤ c.new.tip
        omega
    have hinv1' : Inv O L c1 (S + 2 + 0) := hinv1
    obtain ⟨c2, hrun2, hinv2, hm2, hsq2, hlen2⟩ :=
      scanFields_spec hwf hsL n0 0 c1 hinv1'
        (by rw [hfa1]; exact hfsS) (by omega)
        (by show S + 2 + lenAt O.slots s ≤ S + 2 + n0; omega)
    have hsqeq : c2.new.scan_queue = S + 2 + n0 := by rw [hsq2]
    refine ⟨c2, ?_, ?_, hm1.comp hm2, by omega, by rw [hlen2]⟩
    · simp only [Collector.gcScanNextObject, if_pos hS]
      rw [show c.new.get (c.new.scan_queue + 1) = some (.data (n0 : Int)) from hget]
      simp only [Value.value]
      rw [show ((c.new.scan_queue : Int) + 2 + (n0 : Int)).toNat = S + 2 + n0 from htn]
      rw [show (List.range (Int.toNat (n0 : Int))) = List.range' 0 n0 from by
        rw [show Int.toNat (n0 : Int) = n0 from rfl, List.range_eq_range']]
      rw [show ({ c with new := { c.new with scan_queue := S + 2 + n0 } } : Collector)
        = c1 from rfl]
      rw [hrun2]
    · rw [hsqeq]
      exact hinv2

theorem scanLoop_fuel_mono : ∀ (f : Nat) (c r : Collector),
    Collector.scanLoop f c = .ok r → ∀ g, f ≤ g → Collector.scanLoop g c = .ok r := by
  intro f
  induction f with
  | zero =>
    intro c r h
    simp [Collector.scanLoop] at h
  | succ f ih =>
    intro c r h g hg
    obtain ⟨g', rfl⟩ : ∃ g', g = g' + 1 := ⟨g - 1, by omega⟩
    cases hgo : c.gcScanNextObject with
    | error e => simp [Collector.scanLoop, hgo] at h
    | ok bc =>
      obtain ⟨b, c1⟩ := bc
      cases b
      · simp [Collector.scanLoop, hgo] at h ⊢
        exact h
      · simp only [Collector.scanLoop, hgo] at h ⊢
        rw [if_pos trivial] at h ⊢
        exact ih c1 r h g' (by omega)

theorem scanLoop_spec {O : Heap} {L : List Nat} (hwf : HeapWF O L) :
    ∀ (f : Nat) (c : Collector), Inv O L c c.new.scan_queue →
      c.new.slots.length < f + c.new.scan_queue →
      ∃ c', Collector.scanLoop f c = .ok c' ∧ Inv O L c' c'.new.scan_queue ∧
        Mono c c' ∧ c'.new.tip ≤ c'.new.scan_queue := by
  intro f
  induction f with
  | zero =>
    intro c hinv hfuel
    exfalso
    have h1 := hinv.scan_le
    have h2 := hinv.tip_slots hwf
    omega
  | succ f ih =>
    intro c hinv hfuel
    obtain ⟨hfalse, htrue⟩ := gcScanNextObject_spec hwf hinv
    rcases Nat.lt_or_ge c.new.scan_queue c.new.tip with hlt | hge
    · obtain ⟨c1, hrun, hinv1, hm1, hprog, hlen1⟩ := htrue hlt
      obtain ⟨c2, hrun2, hinv2, hm2, hle2⟩ := ih c1 hinv1 (by omega)
      refine ⟨c2, ?_, hinv2, hm1.comp hm2, hle2⟩
      simp only [Collector.scanLoop, hrun]
      rw [if_pos trivial]
      exact hrun2
    · refine ⟨c, ?_, hinv, Mono.refl c, hge⟩
      simp [Collector.scanLoop, hfalse hge]

/-! ## The full collection cycle -/

theorem Inv.initial {O : Heap} {L : List Nat} (hwf : HeapWF O L) :
    Inv O L ⟨O, O.newHeap⟩ 0 := by
  have hnone : ∀ s ∈ L, fwdAddr ⟨O, O.newHeap⟩ s = none := by
    intro s hsl
    have hk := (hwf.chain.mem_spec hsl).1
    simp [fwdAddr, hk]
  refine ⟨rfl, rfl, rfl, by simp [Heap.newHeap], ?_, ?_, ?_, ?_, ?_, ?_⟩
  · intro p
    exact Or.inl rfl
  · intro s hsl t hf
    rw [hnone s hsl] at hf
    cases hf
  · intro s1 hs1 s2 hs2 t1 t2 hf1 hf2 hne
    rw [hnone s1 hs1] at hf1
    cases hf1
  · have : L.filter (fun s => (fwdAddr ⟨O, O.newHeap⟩ s).isSome) = [] := by
      rw [List.filter_eq_nil_iff]
      intro a ha
      simp [hnone a ha]
    rw [this]
    rfl
  · exact ⟨[], Chain.nil 0, by intro t ht; cases ht⟩
  · exact Nat.zero_le _

theorem WF_elim {m : Machine} (hwf : m.WF) :
    ∃ L, HeapWF m.heap L ∧ (∀ kv ∈ m.registers, okVal m.heap.id L kv.2) ∧
      (∀ v ∈ m.stack, okVal m.heap.id L v) := by
  unfold Machine.WF at hwf
  rcases hp : m.heap.starts with _ | L
  · rw [hp] at hwf
    exact absurd hwf (by simp)
  · rw [hp] at hwf
    obtain ⟨h1, h2, h3, h4⟩ := hwf
    refine ⟨L, ⟨parseChain_sound _ _ _ _ hp, h1, ?_⟩, h2, h3⟩
    intro s hs i hi v hv
    have hm := h4 s hs i hi
    rw [hv] at hm
    exact hm

/-- The master theorem for one collection cycle on a well-formed machine
state: the cycle succeeds (for the fixed fuel and any larger fuel), the
final collector state satisfies the collection invariant with the scan
cursor at the tip, and the returned roots are the forwarded images of the
original roots. -/
theorem collectGarbage_spec (m : Machine) (hwf : m.WF) :
    ∃ (L : List Nat) (regs' : List (String × Value)) (stack' : List Value)
      (cF : Collector),
      HeapWF m.heap L ∧
      (∀ kv ∈ m.registers, okVal m.heap.id L kv.2) ∧
      (∀ v ∈ m.stack, okVal m.heap.id L v) ∧
      (∀ f, m.heap.capacity + 1 ≤ f →
        collectGarbageFuel f m.registers m.stack m.heap = .ok (regs', stack', cF.new)) ∧
      collectGarbage m.registers m.stack m.heap = .ok (regs', stack', cF.new) ∧
      Inv m.heap L cF cF.new.scan_queue ∧
      cF.new.tip ≤ cF.new.scan_queue ∧
      List.Forall₂ (fun kv kw => kw.1 = kv.1 ∧ fwdVal cF kv.2 kw.2)
        m.registers regs' ∧
      List.Forall₂ (fun v w => fwdVal cF v w) m.stack stack' := by
  obtain ⟨L, hH, hregs, hstack⟩ := WF_elim hwf
  have hinv0 : Inv m.heap L ⟨m.heap, m.heap.newHeap⟩ 0 := Inv.initial hH
  obtain ⟨regs', c1, hrun1, hinv1, hm1, hfregs, hsq1, _, _⟩ :=
    visitRegisters_spec hH m.registers ⟨m.heap, m.heap.newHeap⟩ 0 hinv0 hregs
  obtain ⟨stack', c2, hrun2, hinv2, hm2, hfstack, hsq2, _, _⟩ :=
    visitValueStack_spec hH m.stack c1 0 hinv1 hstack
  have hsq : c2.new.scan_queue = 0 := by
    rw [hsq2, hsq1]
    rfl
  have hinv2' : Inv m.heap L c2 c2.new.scan_queue := by
    rw [hsq]
    exact hinv2
  obtain ⟨cF, hloop, hinvF, hmF, htipsc⟩ :=
    scanLoop_spec hH (m.heap.capacity + 1) c2 hinv2'
      (by
        have := hinv2.newLen
        simp only [Heap.capacity] at *
        omega)
  have hall : ∀ f, m.heap.capacity + 1 ≤ f →
      collectGarbageFuel f m.registers m.stack m.heap =
        .ok (regs', stack', cF.new) := by
    intro f hf
    have hloopf : Collector.scanLoop f c2 = .ok cF :=
      scanLoop_fuel_mono _ _ _ hloop f hf
    simp only [collectGarbageFuel, hrun1, hrun2, hloopf]
  refine ⟨L, regs', stack', cF, hH, hregs, hstack, hall, hall _ (le_refl _), hinvF, htipsc,
    List.Forall₂.imp (fun a b h => ⟨h.1, fwdVal_mono h.2 (hm2.comp hmF)⟩) hfregs,
    List.Forall₂.imp (fun a b h => fwdVal_mono h hmF) hfstack⟩

/-! ## Consequences of the fully-scanned invariant -/

theorem forall2_index {α β : Type} {R : α → β → Prop} :
    ∀ {l1 : List α} {l2 : List β}, List.Forall₂ R l1 l2 →
      ∀ (j : Nat) (a : α), l1[j]? = some a → ∃ b, l2[j]? = some b ∧ R a b := by
  intro l1 l2 h
  induction h with
  | nil =>
    intro j a ha
    simp at ha
  | cons hr hrest ih =>
    intro j a ha
    cases j with
    | zero =>
      rw [List.getElem?_cons_zero] at ha
      cases ha
      exact ⟨_, List.getElem?_cons_zero, hr⟩
    | succ j =>
      rw [List.getElem?_cons_succ] at ha
      obtain ⟨b, hb, hr2⟩ := ih j a ha
      exact ⟨b, by rw [List.getElem?_cons_succ]; exact hb, hr2⟩

theorem forall2_mem {α β : Type} {R : α → β → Prop} :
    ∀ {l1 : List α} {l2 : List β}, List.Forall₂ R l1 l2 →
      ∀ a ∈ l1, ∃ b, R a b := by
  intro l1 l2 h
  induction h with
  | nil =>
    intro a ha
    simp at ha
  | cons hr hrest ih =>
    intro a ha
    rcases List.mem_cons.mp ha with rfl | ha2
    · exact ⟨_, hr⟩
    · exact ih a ha2

/-- Once the scan boundary has passed the tip, every copied record's
element slots are fully rewritten through the forwarding relation. -/
theorem fwd_fields_final {O : Heap} {L : List Nat} {c : Collector} {B : Nat}
    (hinv : Inv O L c B) (hdone : c.new.tip ≤ B)
    {s t : Nat} (hs : s ∈ L) (hf : fwdAddr c s = some t) :
    lenAt c.new.slots t = lenAt O.slots s ∧
    ∀ i < lenAt O.slots s, ∀ v, O.slots[s + 2 + i]? = some v →
      ∃ w, c.new.slots[t + 2 + i]? = some w ∧ fwdVal c v w := by
  obtain ⟨_, hk, hl, hle, hfld⟩ := hinv.fwdTarget s hs t hf
  refine ⟨lenAt_eq hl, ?_⟩
  intro i hi v hv
  exact (hfld i hi).2 (by omega) v hv

/-- After a complete scan, every forwarded record is equivalent to its
copy at every depth. -/
theorem fwd_equiv {O : Heap} {L : List Nat} (hwf : HeapWF O L) {c : Collector}
    {B : Nat} (hinv : Inv O L c B) (hdone : c.new.tip ≤ B) :
    ∀ (k : Nat) (s t : Nat), s ∈ L → fwdAddr c s = some t →
      EquivUpTo O c.new k s t := by
  intro k
  induction k with
  | zero =>
    intro s t _ _
    trivial
  | succ k ih =>
    intro s t hs hf
    obtain ⟨hlen, hfld⟩ := fwd_fields_final hinv hdone hs hf
    refine ⟨hlen.symm, ?_⟩
    intro i hi
    obtain ⟨v, hv, hok⟩ := field_exists hwf hs hi
    obtain ⟨w, hw, hvw⟩ := hfld i hi v hv
    rw [hv, hw]
    cases v with
    | pointer hid s' =>
      obtain ⟨t', hft', rfl⟩ := hvw
      exact ⟨hok.1, rfl, ih s' t' hok.2 hft'⟩
    | data m =>
      cases hvw
      rfl
    | key =>
      cases hvw
      rfl
    | null =>
      cases hvw
      rfl

/-- After a complete scan, every record reachable from an admissible root
value is forwarded, and its copy is reachable from the root's image. -/
theorem reach_forwarded {O : Heap} {L : List Nat} (hwf : HeapWF O L)
    {c : Collector} {B : Nat} (hinv : Inv O L c B) (hdone : c.new.tip ≤ B) :
    ∀ {v s}, ReachVal O v s → okVal O.id L v → ∀ w, fwdVal c v w →
      s ∈ L ∧ ∃ t, fwdAddr c s = some t ∧ ReachVal c.new w t := by
  intro v s hr
  induction hr with
  | here s =>
    intro hok w hw
    obtain ⟨t, hft, rfl⟩ := hw
    exact ⟨hok.2, t, hft, ReachVal.here t⟩
  | step v s0 s i hr hi hf ih =>
    intro hok w hw
    obtain ⟨hs0, t0, hft0, hreach0⟩ := ih hok w hw
    have hsok := hwf.fieldsOk s0 hs0 i hi _ hf
    obtain ⟨hlen, hfld⟩ := fwd_fields_final hinv hdone hs0 hft0
    obtain ⟨w', hw', hvw'⟩ := hfld i hi _ hf
    obtain ⟨t, hft, rfl⟩ := hvw'
    exact ⟨hsok.2, t, hft,
      ReachVal.step w t0 t i hreach0 (by rw [hlen]; exact hi) hw'⟩

/-- Under the invariant, the scan loop either completes or runs out of
fuel; no other error — in particular no capacity signal — can arise. -/
theorem scanLoop_ok_or_fuel {O : Heap} {L : List Nat} (hwf : HeapWF O L) :
    ∀ (f : Nat) (c : Collector), Inv O L c c.new.scan_queue →
      (∃ c', Collector.scanLoop f c = .ok c') ∨
        Collector.scanLoop f c = .error .fuel := by
  intro f
  induction f with
  | zero =>
    intro c _
    exact Or.inr rfl
  | succ f ih =>
    intro c hinv
    obtain ⟨hfalse, htrue⟩ := gcScanNextObject_spec hwf hinv
    rcases Nat.lt_or_ge c.new.scan_queue c.new.tip with hlt | hge
    · obtain ⟨c1, hrun, hinv1, _, _, _⟩ := htrue hlt
      rcases ih c1 hinv1 with ⟨c', hc'⟩ | hfuel
      · refine Or.inl ⟨c', ?_⟩
        simp only [Collector.scanLoop, hrun]
        rw [if_pos trivial]
        exact hc'
      · refine Or.inr ?_
        simp only [Collector.scanLoop, hrun]
        rw [if_pos trivial]
        exact hfuel
    · exact Or.inl ⟨c, by simp [Collector.scanLoop, hfalse hge]⟩

/-! ## Error pedigrees of the allocation paths -/

theorem Heap.add_err {h : Heap} {v : Value} {e : Err}
    (hx : h.add v = .error e) : e = .crash := by
  unfold Heap.add at hx
  split at hx
  · cases hx
  · simp only [Except.error.injEq] at hx
    exact hx.symm

theorem cloneAddLoop_err : ∀ (l : List Nat) (h : Heap) (off : Nat) (e : Err)
    (h3 : Heap), Heap.cloneAddLoop h off l = (.error e, h3) → e = .crash := by
  intro l
  induction l with
  | nil =>
    intro h off e h3 hx
    simp [Heap.cloneAddLoop] at hx
  | cons i rest ih =>
    intro h off e h3 hx
    cases hg : h.get (off + 2 + i) with
    | none =>
      simp only [Heap.cloneAddLoop, hg, Prod.mk.injEq, Except.error.injEq] at hx
      exact hx.1.symm
    | some v =>
      cases ha : h.add v with
      | error e2 =>
        simp only [Heap.cloneAddLoop, hg, ha, Prod.mk.injEq, Except.error.injEq] at hx
        rw [← hx.1]
        exact Heap.add_err ha
      | ok h1 =>
        simp only [Heap.cloneAddLoop, hg, ha] at hx
        exact ih h1 off e h3 hx

/-- `clone` raises the capacity signal only from `checkCapacity`, before
any write: the heap comes back untouched. -/
theorem clone_gcNeeded {h : Heap} {p : Value} {h1 : Heap}
    (hx : h.clone p = (.error .gcNeeded, h1)) : h1 = h := by
  cases p with
  | data m => simp [Heap.clone] at hx
  | key => simp [Heap.clone] at hx
  | null => simp [Heap.clone] at hx
  | pointer hid off =>
    cases hg : h.get (off + 1) with
    | none => simp [Heap.clone, hg] at hx
    | some lv =>
      cases hv : lv.value with
      | none => simp [Heap.clone, hg, hv] at hx
      | some n =>
        cases hc : h.checkCapacity (n + 2) with
        | error e2 =>
          simp only [Heap.clone, hg, hv, hc, Prod.mk.injEq] at hx
          exact hx.2.symm
        | ok u =>
          cases ha : h.add .key with
          | error e2 =>
            have := Heap.add_err ha
            subst this
            simp [Heap.clone, hg, hv, hc, ha] at hx
          | ok hk1 =>
            cases ha2 : hk1.add (.data n) with
            | error e2 =>
              have := Heap.add_err ha2
              subst this
              simp [Heap.clone, hg, hv, hc, ha, ha2] at hx
            | ok hk2 =>
              rcases hl : hk2.cloneAddLoop off (List.range n.toNat) with ⟨r, h3⟩
              cases r with
              | error e2 =>
                have := cloneAddLoop_err _ _ _ _ _ hl
                subst this
                simp [Heap.clone, hg, hv, hc, ha, ha2, hl] at hx
              | ok u2 =>
                simp [Heap.clone, hg, hv, hc, ha, ha2, hl] at hx

/-- `newOject` raises the capacity signal only from `checkCapacity`, before
any write: heap and stack come back untouched. -/
theorem newOject_gcNeeded {h : Heap} {n : Nat} {st : List Value} {h1 : Heap}
    {st1 : List Value}
    (hx : h.newOject n st = (.error .gcNeeded, h1, st1)) : h1 = h ∧ st1 = st := by
  cases hc : h.checkCapacity ((n : Int) + 2) with
  | error e2 =>
    simp only [Heap.newOject, hc, Prod.mk.injEq] at hx
    exact ⟨hx.2.1.symm, hx.2.2.symm⟩
  | ok u =>
    cases ha : h.add .key with
    | error e2 =>
      have := Heap.add_err ha
      subst this
      simp [Heap.newOject, hc, ha] at hx
    | ok hk1 =>
      cases ha2 : hk1.add (.data (n : Int)) with
      | error e2 =>
        have := Heap.add_err ha2
        subst this
        simp [Heap.newOject, hc, ha, ha2] at hx
      | ok hk2 =>
        simp [Heap.newOject, hc, ha, ha2] at hx

/-- The capacity signal out of `NEW_OBJECT`'s attempt leaves the machine
state exactly as it was. -/
theorem newObjectAttempt_gcNeeded {m : Machine} {lenReg objReg : String}
    {m1 : Machine}
    (hx : m.newObjectAttempt lenReg objReg = (.error .gcNeeded, m1)) : m1 = m := by
  cases hg : getReg m.registers lenReg with
  | none => simp [Machine.newObjectAttempt, hg] at hx
  | some lv =>
    cases hv : lv.value with
    | none => simp [Machine.newObjectAttempt, hg, hv] at hx
    | some n =>
      by_cases hneg : n < 0
      · simp [Machine.newObjectAttempt, hg, hv, if_pos hneg] at hx
      · rcases ho : m.heap.newOject n.toNat m.stack with ⟨r, h1, st1⟩
        cases r with
        | ok u =>
          simp [Machine.newObjectAttempt, hg, hv, if_neg hneg, ho] at hx
        | error e =>
          simp only [Machine.newObjectAttempt, hg, hv, if_neg hneg, ho,
            Prod.mk.injEq, Except.error.injEq] at hx
          obtain ⟨he, hm1⟩ := hx
          subst he
          obtain ⟨hh, hs⟩ := newOject_gcNeeded ho
          subst hh
          subst hs
          exact hm1.symm

/-- The capacity signal out of `CLONE`'s attempt leaves the machine state
exactly as it was. -/
theorem cloneAttempt_gcNeeded {m : Machine} {objReg cloneReg : String}
    {m1 : Machine}
    (hx : m.cloneAttempt objReg cloneReg = (.error .gcNeeded, m1)) : m1 = m := by
  cases hg : getReg m.registers objReg with
  | none => simp [Machine.cloneAttempt, hg] at hx
  | some pv =>
    rcases ho : m.heap.clone pv with ⟨r, h1⟩
    cases r with
    | ok u =>
      simp [Machine.cloneAttempt, hg, ho] at hx
    | error e =>
      simp only [Machine.cloneAttempt, hg, ho, Prod.mk.injEq,
        Except.error.injEq] at hx
      obtain ⟨he, hm1⟩ := hx
      subst he
      have hh := clone_gcNeeded ho
      subst hh
      exact hm1.symm

/-- Under well-formedness, a full collection cycle at the machine level
succeeds. -/
theorem garbageCollect_ok {m : Machine} (hwf : m.WF) :
    ∃ m2, m.garbageCollect = .ok m2 := by
  obtain ⟨L, regs', stack', cF, _, _, _, _, hok, _⟩ := collectGarbage_spec m hwf
  exact ⟨⟨regs', cF.new, stack'⟩, by simp [Machine.garbageCollect, hok]⟩

/-- `NEW_OBJECT` with `try_gc=False` never lets the capacity signal out. -/
theorem NEW_OBJECT_noGC_not_gc (m2 : Machine) (a b : String) :
    ∀ e, m2.NEW_OBJECT_noGC a b = .error e → e ≠ .gcNeeded := by
  intro e h
  rcases hA : m2.newObjectAttempt a b with ⟨r, m3⟩
  cases r with
  | ok u =>
    simp [Machine.NEW_OBJECT_noGC, hA] at h
  | error e2 =>
    cases e2 with
    | gcNeeded =>
      simp only [Machine.NEW_OBJECT_noGC, hA, Except.error.injEq] at h
      subst h
      simp
    | crash =>
      simp only [Machine.NEW_OBJECT_noGC, hA, Except.error.injEq] at h
      subst h
      simp
    | ourError s =>
      simp only [Machine.NEW_OBJECT_noGC, hA, Except.error.injEq] at h
      subst h
      simp
    | fuel =>
      simp only [Machine.NEW_OBJECT_noGC, hA, Except.error.injEq] at h
      subst h
      simp

/-- C5: for every well-formed machine state — including states whose object
graph contains cycles, such as the concrete two-record cycle used in the
witness — a collection cycle terminates: `collectGarbage` returns a result,
and the scan loop's outcome is stable under any extra fuel at or beyond the
bound `capacity + 1`, so the `while gcScanNextObject` loop ends after
finitely many iterations. -/
theorem C5_termination (m : Machine) (hwf : m.WF) :
    ∃ out, collectGarbage m.registers m.stack m.heap = .ok out ∧
      ∀ f, m.heap.capacity + 1 ≤ f →
        collectGarbageFuel f m.registers m.stack m.heap = .ok out := by
  obtain ⟨L, regs', stack', cF, _, _, _, hall, hok, _⟩ := collectGarbage_spec m hwf
  exact ⟨(regs', stack', cF.new), hok, hall⟩

/-- Witness for C5 on the machine with a two-record pointer cycle. -/
theorem C5_termination_witness :
    cycMachine.WF ∧
    ∃ out, collectGarbage cycMachine.registers cycMachine.stack cycMachine.heap
        = .ok out ∧
      ∀ f, cycMachine.heap.capacity + 1 ≤ f →
        collectGarbageFuel f cycMachine.registers cycMachine.stack
          cycMachine.heap = .ok out :=
  ⟨by decide, C5_termination cycMachine (by decide)⟩

/-- C10: for every well-formed machine state the capacity check inside the
collector's `cloneToTargetHeap` never fires: whatever the scan-loop fuel,
the only possible failure of a collection cycle is fuel exhaustion (a
modelling artefact), so in particular the capacity-exceeded exception can
never escape `collectGarbage`. -/
theorem C10_capacity_never_fires (m : Machine) (hwf : m.WF) :
    (∀ (f : Nat) (e : Err),
      collectGarbageFuel f m.registers m.stack m.heap = .error e → e = .fuel) ∧
    collectGarbage m.registers m.stack m.heap ≠ .error .gcNeeded := by
  have key : ∀ (f : Nat) (e : Err),
      collectGarbageFuel f m.registers m.stack m.heap = .error e → e = .fuel := by
    intro f e h
    obtain ⟨L, hH, hregs, hstack⟩ := WF_elim hwf
    have hinv0 := Inv.initial hH
    obtain ⟨regs', c1, hrun1, hinv1, _, _, hsq1, _, _⟩ :=
      visitRegisters_spec hH m.registers ⟨m.heap, m.heap.newHeap⟩ 0 hinv0 hregs
    obtain ⟨stack', c2, hrun2, hinv2, _, _, hsq2, _, _⟩ :=
      visitValueStack_spec hH m.stack c1 0 hinv1 hstack
    have hsq : c2.new.scan_queue = 0 := by
      rw [hsq2, hsq1]
      rfl
    have hinv2' : Inv m.heap L c2 c2.new.scan_queue := by
      rw [hsq]
      exact hinv2
    rcases scanLoop_ok_or_fuel hH f c2 hinv2' with ⟨c', hc'⟩ | hfuel
    · simp only [collectGarbageFuel, hrun1, hrun2, hc'] at h
      simp at h
    · simp only [collectGarbageFuel, hrun1, hrun2, hfuel,
        Except.error.injEq] at h
      exact h.symm
  refine ⟨key, fun h => ?_⟩
  have h' : collectGarbageFuel (m.heap.capacity + 1) m.registers m.stack m.heap
      = .error .gcNeeded := h
  simpa using key _ _ h'

/-- Witness for C10 on the machine with a two-record pointer cycle. -/
theorem C10_capacity_never_fires_witness :
    cycMachine.WF ∧
    ((∀ (f : Nat) (e : Err),
      collectGarbageFuel f cycMachine.registers cycMachine.stack cycMachine.heap
        = .error e → e = .fuel) ∧
    collectGarbage cycMachine.registers cycMachine.stack cycMachine.heap
      ≠ .error .gcNeeded) :=
  ⟨by decide, C10_capacity_never_fires cycMachine (by decide)⟩

/-- `CLONE` with `try_gc=False` never lets the capacity signal out. -/
theorem CLONE_noGC_not_gc (m2 : Machine) (a b : String) :
    ∀ e, m2.CLONE_noGC a b = .error e → e ≠ .gcNeeded := by
  intro e h
  rcases hA : m2.cloneAttempt a b with ⟨r, m3⟩
  cases r with
  | ok u =>
    simp [Machine.CLONE_noGC, hA] at h
  | error e2 =>
    cases e2 with
    | gcNeeded =>
      simp only [Machine.CLONE_noGC, hA, Except.error.injEq] at h
      subst h
      simp
    | crash =>
      simp only [Machine.CLONE_noGC, hA, Except.error.injEq] at h
      subst h
      simp
    | ourError s =>
      simp only [Machine.CLONE_noGC, hA, Except.error.injEq] at h
      subst h
      simp
    | fuel =>
      simp only [Machine.CLONE_noGC, hA, Except.error.injEq] at h
      subst h
      simp

/-- C3: both allocating machine operations, `NEW_OBJECT` and `CLONE`,
follow the retry-once collection protocol on a well-formed state: the
attempt's outcome passes through; a capacity signal leaves the state
untouched, triggers exactly one full collection, and is followed by exactly
one retry with `try_gc=False`, whose own capacity signal becomes the fatal
out-of-memory error with no further collection; the capacity signal itself
never escapes to the driver. -/
theorem C3_retry_once (m : Machine) (hwf : m.WF)
    (lenReg objReg objReg2 cloneReg : String) :
    RetryOnceProtocol (fun m0 => m0.newObjectAttempt lenReg objReg)
      (fun m0 => m0.NEW_OBJECT_noGC lenReg objReg)
      (fun m0 => m0.NEW_OBJECT lenReg objReg) m ∧
    RetryOnceProtocol (fun m0 => m0.cloneAttempt objReg2 cloneReg)
      (fun m0 => m0.CLONE_noGC objReg2 cloneReg)
      (fun m0 => m0.CLONE objReg2 cloneReg) m := by
  constructor
  · refine ⟨?_, ?_, ?_, ?_⟩
    · intro m1 h
      simp only [] at h
      simp only [Machine.NEW_OBJECT, h]
    · intro e m1 h hne
      simp only [] at h
      cases e with
      | gcNeeded => exact absurd rfl hne
      | crash => simp [Machine.NEW_OBJECT, h]
      | ourError s => simp [Machine.NEW_OBJECT, h]
      | fuel => simp [Machine.NEW_OBJECT, h]
    · intro m1 h
      simp only [] at h
      have hm1 := newObjectAttempt_gcNeeded h
      obtain ⟨m2, hgc⟩ := garbageCollect_ok (m := m1) (hm1.symm ▸ hwf)
      refine ⟨hm1, m2, hgc, ?_, ?_, ?_, ?_⟩
      · simp only [Machine.NEW_OBJECT, h, hgc]
      · intro m3 h3
        simp only [] at h3
        simp only [Machine.NEW_OBJECT_noGC, h3]
      · intro m3 h3
        simp only [] at h3
        simp only [Machine.NEW_OBJECT_noGC, h3]
      · intro e m3 h3 hne3
        simp only [] at h3
        cases e with
        | gcNeeded => exact absurd rfl hne3
        | crash => simp [Machine.NEW_OBJECT_noGC, h3]
        | ourError s => simp [Machine.NEW_OBJECT_noGC, h3]
        | fuel => simp [Machine.NEW_OBJECT_noGC, h3]
    · intro hcon
      simp only [] at hcon
      rcases hA : m.newObjectAttempt lenReg objReg with ⟨r, m1⟩
      cases r with
      | ok u => simp [Machine.NEW_OBJECT, hA] at hcon
      | error e =>
        cases e with
        | gcNeeded =>
          have hm1 := newObjectAttempt_gcNeeded hA
          obtain ⟨m2, hgc⟩ := garbageCollect_ok (m := m1) (hm1.symm ▸ hwf)
          simp only [Machine.NEW_OBJECT, hA, hgc] at hcon
          exact NEW_OBJECT_noGC_not_gc m2 lenReg objReg _ hcon rfl
        | crash => simp [Machine.NEW_OBJECT, hA] at hcon
        | ourError s => simp [Machine.NEW_OBJECT, hA] at hcon
        | fuel => simp [Machine.NEW_OBJECT, hA] at hcon
  · refine ⟨?_, ?_, ?_, ?_⟩
    · intro m1 h
      simp only [] at h
      simp only [Machine.CLONE, h]
    · intro e m1 h hne
      simp only [] at h
      cases e with
      | gcNeeded => exact absurd rfl hne
      | crash => simp [Machine.CLONE, h]
      | ourError s => simp [Machine.CLONE, h]
      | fuel => simp [Machine.CLONE, h]
    · intro m1 h
      simp only [] at h
      have hm1 := cloneAttempt_gcNeeded h
      obtain ⟨m2, hgc⟩ := garbageCollect_ok (m := m1) (hm1.symm ▸ hwf)
      refine ⟨hm1, m2, hgc, ?_, ?_, ?_, ?_⟩
      · simp only [Machine.CLONE, h, hgc]
      · intro m3 h3
        simp only [] at h3
        simp only [Machine.CLONE_noGC, h3]
      · intro m3 h3
        simp only [] at h3
        simp only [Machine.CLONE_noGC, h3]
      · intro e m3 h3 hne3
        simp only [] at h3
        cases e with
        | gcNeeded => exact absurd rfl hne3
        | crash => simp [Machine.CLONE_noGC, h3]
        | ourError s => simp [Machine.CLONE_noGC, h3]
        | fuel => simp [Machine.CLONE_noGC, h3]
    · intro hcon
      simp only [] at hcon
      rcases hA : m.cloneAttempt objReg2 cloneReg with ⟨r, m1⟩
      cases r with
      | ok u => simp [Machine.CLONE, hA] at hcon
      | error e =>
        cases e with
        | gcNeeded =>
          have hm1 := cloneAttempt_gcNeeded hA
          obtain ⟨m2, hgc⟩ := garbageCollect_ok (m := m1) (hm1.symm ▸ hwf)
          simp only [Machine.CLONE, hA, hgc] at hcon
          exact CLONE_noGC_not_gc m2 objReg2 cloneReg _ hcon rfl
        | crash => simp [Machine.CLONE, hA] at hcon
        | ourError s => simp [Machine.CLONE, hA] at hcon
        | fuel => simp [Machine.CLONE, hA] at hcon

/-- Witness for C3 on the machine with a two-record pointer cycle. -/
theorem C3_retry_once_witness :
    cycMachine.WF ∧
    (RetryOnceProtocol (fun m0 => m0.newObjectAttempt "L" "R")
        (fun m0 => m0.NEW_OBJECT_noGC "L" "R")
        (fun m0 => m0.NEW_OBJECT "L" "R") cycMachine ∧
      RetryOnceProtocol (fun m0 => m0.cloneAttempt "A" "B")
        (fun m0 => m0.CLONE_noGC "A" "B")
        (fun m0 => m0.CLONE "A" "B") cycMachine) :=
  ⟨by decide, C3_retry_once cycMachine (by decide) "L" "R" "A" "B"⟩

/-- C1: on a well-formed machine state, a collection cycle succeeds, and
every record reachable before collection from a register or operand-stack
slot through zero or more pointer fields has, reachable from the rewritten
image of that same root in the post-collection heap, a copy equivalent at
every depth (same length and element values, with pointers resolving to
equivalent records). -/
theorem C1_liveness (m : Machine) (hwf : m.WF) :
    ∃ (regs' : List (String × Value)) (stack' : List Value) (H' : Heap),
      collectGarbage m.registers m.stack m.heap = .ok (regs', stack', H') ∧
      (∀ (j : Nat) (kv : String × Value), m.registers[j]? = some kv →
        ∀ s, ReachVal m.heap kv.2 s →
          ∃ w t, regs'[j]? = some (kv.1, w) ∧ ReachVal H' w t ∧
            ∀ k, EquivUpTo m.heap H' k s t) ∧
      (∀ (j : Nat) (v : Value), m.stack[j]? = some v →
        ∀ s, ReachVal m.heap v s →
          ∃ w t, stack'[j]? = some w ∧ ReachVal H' w t ∧
            ∀ k, EquivUpTo m.heap H' k s t) := by
  obtain ⟨L, regs', stack', cF, hH, hokr, hoks, hall, hok, hinvF, hdone,
    hfregs, hfstack⟩ := collectGarbage_spec m hwf
  refine ⟨regs', stack', cF.new, hok, ?_, ?_⟩
  · intro j kv hj s hr
    obtain ⟨kw, hkw, hk1, hfw⟩ := forall2_index hfregs j kv hj
    have hok2 := hokr kv (List.getElem?_mem hj)
    obtain ⟨hsL, t, hft, hreach⟩ :=
      reach_forwarded hH hinvF hdone hr hok2 kw.2 hfw
    refine ⟨kw.2, t, ?_, hreach, fun k => fwd_equiv hH hinvF hdone k s t hsL hft⟩
    rw [hkw]
    obtain ⟨a, b⟩ := kw
    rw [show a = kv.1 from hk1]
  · intro j v hj s hr
    obtain ⟨w, hw, hfw⟩ := forall2_index hfstack j v hj
    have hok2 := hoks v (List.getElem?_mem hj)
    obtain ⟨hsL, t, hft, hreach⟩ := reach_forwarded hH hinvF hdone hr hok2 w hfw
    exact ⟨w, t, hw, hreach, fun k => fwd_equiv hH hinvF hdone k s t hsL hft⟩

/-- Witness for C1 on the machine with a two-record pointer cycle. -/
theorem C1_liveness_witness :
    cycMachine.WF ∧
    ∃ (regs' : List (String × Value)) (stack' : List Value) (H' : Heap),
      collectGarbage cycMachine.registers cycMachine.stack cycMachine.heap
        = .ok (regs', stack', H') ∧
      (∀ (j : Nat) (kv : String × Value), cycMachine.registers[j]? = some kv →
        ∀ s, ReachVal cycMachine.heap kv.2 s →
          ∃ w t, regs'[j]? = some (kv.1, w) ∧ ReachVal H' w t ∧
            ∀ k, EquivUpTo cycMachine.heap H' k s t) ∧
      (∀ (j : Nat) (v : Value), cycMachine.stack[j]? = some v →
        ∀ s, ReachVal cycMachine.heap v s →
          ∃ w t, stack'[j]? = some w ∧ ReachVal H' w t ∧
            ∀ k, EquivUpTo cycMachine.heap H' k s t) :=
  ⟨by decide, C1_liveness cycMachine (by decide)⟩

/-- C2: on a well-formed machine state the whole collection cycle rewrites
references through one single partial forwarding map `F`: `F` is injective
(so each live record is copied at most once and distinct records get
distinct copies), every reachable record is in `F`'s domain, every pointer
root to a record `s` is rewritten to the one new-heap pointer `F s`, and
every element slot of a copied record pointing at `s'` is rewritten to the
one new-heap pointer `F s'` — so two roots or fields that referenced the
same record reference the identical copy afterwards. -/
theorem C2_sharing (m : Machine) (hwf : m.WF) :
    ∃ (regs' : List (String × Value)) (stack' : List Value) (H' : Heap)
      (F : Nat → Option Nat),
      collectGarbage m.registers m.stack m.heap = .ok (regs', stack', H') ∧
      (∀ s1 s2 t, F s1 = some t → F s2 = some t → s1 = s2) ∧
      (∀ s, m.Reachable s → (F s).isSome) ∧
      (∀ (j : Nat) (kv : String × Value) (s : Nat), m.registers[j]? = some kv →
        kv.2 = .pointer m.heap.id s →
        ∃ t, F s = some t ∧ regs'[j]? = some (kv.1, .pointer H'.id t)) ∧
      (∀ (j : Nat) (s : Nat), m.stack[j]? = some (.pointer m.heap.id s) →
        ∃ t, F s = some t ∧ stack'[j]? = some (.pointer H'.id t)) ∧
      (∀ s t, F s = some t → ∀ i < lenAt m.heap.slots s, ∀ s',
        m.heap.slots[s + 2 + i]? = some (.pointer m.heap.id s') →
        ∃ t', F s' = some t' ∧ H'.slots[t + 2 + i]? = some (.pointer H'.id t')) := by
  obtain ⟨L, regs', stack', cF, hH, hokr, hoks, hall, hok, hinvF, hdone,
    hfregs, hfstack⟩ := collectGarbage_spec m hwf
  refine ⟨regs', stack', cF.new, fwdMap L cF, hok, ?_, ?_, ?_, ?_, ?_⟩
  · intro s1 s2 t h1 h2
    unfold fwdMap at h1 h2
    by_cases hs1 : s1 ∈ L
    · by_cases hs2 : s2 ∈ L
      · rw [if_pos hs1] at h1
        rw [if_pos hs2] at h2
        by_contra hne
        rcases hinvF.spansDisj s1 hs1 s2 hs2 t t h1 h2 hne with hd | hd <;> omega
      · rw [if_neg hs2] at h2
        cases h2
    · rw [if_neg hs1] at h1
      cases h1
  · rintro s ⟨v, hroot, hr⟩
    rcases hroot with ⟨kv, hkvmem, rfl⟩ | hvmem
    · obtain ⟨kw, _, hfw⟩ := forall2_mem hfregs kv hkvmem
      obtain ⟨hsL, t, hft, _⟩ :=
        reach_forwarded hH hinvF hdone hr (hokr kv hkvmem) kw.2 hfw
      simp [fwdMap, hsL, hft]
    · obtain ⟨w, hfw⟩ := forall2_mem hfstack v hvmem
      obtain ⟨hsL, t, hft, _⟩ :=
        reach_forwarded hH hinvF hdone hr (hoks v hvmem) w hfw
      simp [fwdMap, hsL, hft]
  · intro j kv s hj hkv2
    obtain ⟨kw, hkw, hk1, hfw⟩ := forall2_index hfregs j kv hj
    have hok2 := hokr kv (List.getElem?_mem hj)
    rw [hkv2] at hok2 hfw
    obtain ⟨t, hft, hkw2⟩ := hfw
    refine ⟨t, by unfold fwdMap; rw [if_pos hok2.2]; exact hft, ?_⟩
    rw [hkw]
    obtain ⟨a, b⟩ := kw
    rw [show a = kv.1 from hk1, show b = Value.pointer cF.new.id t from hkw2]
  · intro j s hj
    obtain ⟨w, hw, hfw⟩ := forall2_index hfstack j _ hj
    have hok2 := hoks _ (List.getElem?_mem hj)
    obtain ⟨t, hft, hw2⟩ := hfw
    refine ⟨t, by unfold fwdMap; rw [if_pos hok2.2]; exact hft, ?_⟩
    rw [hw, hw2]
  · intro s t hFt i hi s' hfld
    unfold fwdMap at hFt
    have hFt' : s ∈ L ∧ fwdAddr cF s = some t := by
      by_cases hs : s ∈ L
      · rw [if_pos hs] at hFt
        exact ⟨hs, hFt⟩
      · rw [if_neg hs] at hFt
        cases hFt
    obtain ⟨hsL, hft⟩ := hFt'
    obtain ⟨hlen, hfields⟩ := fwd_fields_final hinvF hdone hsL hft
    obtain ⟨w, hw, hvw⟩ := hfields i hi _ hfld
    obtain ⟨t', hft', rfl⟩ := hvw
    have hs'L := (hH.fieldsOk s hsL i hi _ hfld).2
    exact ⟨t', by unfold fwdMap; rw [if_pos hs'L]; exact hft', hw⟩

/-- Witness for C2 on the machine with a two-record pointer cycle. -/
theorem C2_sharing_witness :
    cycMachine.WF ∧
    ∃ (regs' : List (String × Value)) (stack' : List Value) (H' : Heap)
      (F : Nat → Option Nat),
      collectGarbage cycMachine.registers cycMachine.stack cycMachine.heap
        = .ok (regs', stack', H') ∧
      (∀ s1 s2 t, F s1 = some t → F s2 = some t → s1 = s2) ∧
      (∀ s, cycMachine.Reachable s → (F s).isSome) ∧
      (∀ (j : Nat) (kv : String × Value) (s : Nat),
        cycMachine.registers[j]? = some kv →
        kv.2 = .pointer cycMachine.heap.id s →
        ∃ t, F s = some t ∧ regs'[j]? = some (kv.1, .pointer H'.id t)) ∧
      (∀ (j : Nat) (s : Nat),
        cycMachine.stack[j]? = some (.pointer cycMachine.heap.id s) →
        ∃ t, F s = some t ∧ stack'[j]? = some (.pointer H'.id t)) ∧
      (∀ s t, F s = some t → ∀ i < lenAt cycMachine.heap.slots s, ∀ s',
        cycMachine.heap.slots[s + 2 + i]? = some (.pointer cycMachine.heap.id s') →
        ∃ t', F s' = some t' ∧ H'.slots[t + 2 + i]? = some (.pointer H'.id t')) :=
  ⟨by decide, C2_sharing cycMachine (by decide)⟩

end CheneyGC
